import Mathlib

/-!
Verification of the FALM federated grant-search core against its
natural-language specification.

The development shallowly embeds the three core modules:

* `src/core/simp.py`   — the SIMP message protocol (envelopes, validation,
  reply construction, history);
* `src/core/base_nlm.py` — the agent runtime (message dispatch, metadata
  flattening, indexing, hybrid search, bulk read);
* `src/core/orchestrator.py` — routing, fan-out with retry, aggregation,
  result cache.

Modelling conventions:

* Python floats are modelled as `ℚ` where the program only does field
  arithmetic and comparisons on them, and as `ℝ` where square roots enter
  (the cosine similarity in the orchestrator).
* Wall-clock readings (`datetime.utcnow()`) are threaded as explicit `now`
  parameters of type `ℚ` (seconds).  ISO-timestamp strings on envelopes are
  modelled directly as those numeric readings.
* Python dicts are modelled as association lists (insertion-ordered, like
  Python dicts); `dict.get(k, d)` becomes `lookup` with a default.
* External collaborators (the embedding model, the vector backend) are
  modelled as explicit parameters or as small state machines that follow
  their documented interface contracts.
-/

namespace FALM

/-! ## Stable insertion sort

`list.sort(key=...)` in Python is a stable ascending sort.  `pySort le`
reproduces it for a total, transitive `le`: each element is inserted after
every earlier element that compares `le` to it, which preserves the
relative order of equal keys exactly as a stable sort does. -/

def insertStable {α : Type} (le : α → α → Prop) [DecidableRel le] (x : α) :
    List α → List α
  | [] => [x]
  | y :: ys => if le y x then y :: insertStable le x ys else x :: y :: ys

def pySort {α : Type} (le : α → α → Prop) [DecidableRel le] (l : List α) :
    List α :=
  l.foldl (fun acc x => insertStable le x acc) []

theorem length_insertStable {α : Type} (le : α → α → Prop) [DecidableRel le]
    (x : α) (l : List α) : (insertStable le x l).length = l.length + 1 := by
  induction l with
  | nil => rfl
  | cons y ys ih =>
    simp only [insertStable]
    by_cases h : le y x
    · rw [if_pos h]; simp [ih]
    · rw [if_neg h]; simp

theorem length_pySort {α : Type} (le : α → α → Prop) [DecidableRel le]
    (l : List α) : (pySort le l).length = l.length := by
  suffices h : ∀ acc : List α,
      (List.foldl (fun acc x => insertStable le x acc) acc l).length
        = acc.length + l.length by
    simpa using h []
  induction l with
  | nil => intro acc; simp
  | cons y ys ih =>
    intro acc
    simp only [List.foldl_cons]
    rw [ih (insertStable le y acc), length_insertStable]
    simp only [List.length_cons]
    omega

theorem mem_insertStable {α : Type} (le : α → α → Prop) [DecidableRel le]
    (x a : α) (l : List α) :
    a ∈ insertStable le x l ↔ a = x ∨ a ∈ l := by
  induction l with
  | nil => simp [insertStable]
  | cons y ys ih =>
    simp only [insertStable]
    by_cases h : le y x
    · rw [if_pos h]
      simp only [List.mem_cons, ih]
      tauto
    · rw [if_neg h]
      simp only [List.mem_cons]

theorem mem_pySort {α : Type} (le : α → α → Prop) [DecidableRel le]
    (a : α) (l : List α) : a ∈ pySort le l ↔ a ∈ l := by
  suffices h : ∀ acc : List α,
      (a ∈ List.foldl (fun acc x => insertStable le x acc) acc l)
        ↔ a ∈ acc ∨ a ∈ l by
    simpa using h []
  induction l with
  | nil => intro acc; simp
  | cons y ys ih =>
    intro acc
    simp only [List.foldl_cons]
    rw [ih (insertStable le y acc), mem_insertStable]
    simp only [List.mem_cons]
    tauto

theorem pairwise_insertStable {α : Type} (le : α → α → Prop) [DecidableRel le]
    (htot : ∀ a b, le a b ∨ le b a) (htrans : Transitive le)
    (x : α) (l : List α) (hl : l.Pairwise le) :
    (insertStable le x l).Pairwise le := by
  induction l with
  | nil => simp [insertStable]
  | cons y ys ih =>
    simp only [insertStable]
    rcases List.pairwise_cons.mp hl with ⟨hy, hys⟩
    by_cases h : le y x
    · rw [if_pos h]
      refine List.pairwise_cons.mpr ⟨?_, ih hys⟩
      intro b hb
      rcases (mem_insertStable le x b ys).mp hb with rfl | hbys
      · exact h
      · exact hy b hbys
    · rw [if_neg h]
      refine List.pairwise_cons.mpr ⟨?_, hl⟩
      intro b hb
      rcases List.mem_cons.mp hb with rfl | hbys
      · rcases htot x b with hxb | hbx
        · exact hxb
        · exact absurd hbx h
      · rcases htot x y with hxy | hyx
        · exact htrans hxy (hy b hbys)
        · exact absurd hyx h

theorem pairwise_pySort {α : Type} (le : α → α → Prop) [DecidableRel le]
    (htot : ∀ a b, le a b ∨ le b a) (htrans : Transitive le)
    (l : List α) : (pySort le l).Pairwise le := by
  suffices h : ∀ acc : List α, acc.Pairwise le →
      (List.foldl (fun acc x => insertStable le x acc) acc l).Pairwise le by
    exact h [] List.Pairwise.nil
  induction l with
  | nil => intro acc hacc; simpa using hacc
  | cons y ys ih =>
    intro acc hacc
    simp only [List.foldl_cons]
    exact ih _ (pairwise_insertStable le htot htrans y acc hacc)

/-! ## Python string primitives

String scrutiny in the source (`str.lower()`, `str.split()`, the `in`
substring test, tuple comparison on strings) is modelled over the
character list of a `String`, so that every operation reduces in the
kernel. -/

/-- Lowercasing, as `str.lower()` applied to the strings the core handles. -/
def pyLower (s : String) : String :=
  String.mk (s.data.map Char.toLower)

/-- Whitespace tokenisation of `str.split()`: maximal runs of
non-whitespace characters, empty tokens dropped. -/
def splitWsAux : List Char → List Char → List String
  | [], [] => []
  | [], acc => [String.mk acc.reverse]
  | c :: cs, acc =>
    if c.isWhitespace then
      match acc with
      | [] => splitWsAux cs []
      | _ => String.mk acc.reverse :: splitWsAux cs []
    else splitWsAux cs (c :: acc)

def pySplit (s : String) : List String :=
  splitWsAux s.data []

/-- Token set of a query or document: `set(s.split())` on an
already-lowercased string. -/
def tokenSet (s : String) : Finset String :=
  (pySplit s).toFinset

/-- Prefix test over raw character lists. -/
def listIsPrefix : List Char → List Char → Bool
  | [], _ => true
  | _ :: _, [] => false
  | n :: ns, h :: hs => n = h && listIsPrefix ns hs

/-- Substring containment, as the Python `in` operator on strings.  An
empty needle is contained in every string. -/
def listContains (needle : List Char) : List Char → Bool
  | [] => listIsPrefix needle []
  | c :: cs => listIsPrefix needle (c :: cs) || listContains needle cs

def pyContains (hay needle : String) : Bool :=
  listContains needle.data hay.data

/-- Boolean lexicographic comparison of character lists by code point;
this is the order Python uses on the deadline strings in sort keys. -/
def charListLeB : List Char → List Char → Bool
  | [], _ => true
  | _ :: _, [] => false
  | a :: as, b :: bs =>
    if a.toNat < b.toNat then true
    else if a = b then charListLeB as bs
    else false

/-- String comparison used in Python sort keys. -/
def pyStrLe (s t : String) : Prop := charListLeB s.data t.data = true

instance : DecidableRel pyStrLe := fun s t => by
  unfold pyStrLe; infer_instance

theorem charListLeB_total :
    ∀ a b : List Char, charListLeB a b = true ∨ charListLeB b a = true := by
  intro a
  induction a with
  | nil => intro b; left; cases b <;> rfl
  | cons x xs ih =>
    intro b
    cases b with
    | nil => right; rfl
    | cons y ys =>
      rcases Nat.lt_trichotomy x.toNat y.toNat with h | h | h
      · left; simp [charListLeB, h]
      · have hxy : x = y := Char.ext (by
          have : x.val.toNat = y.val.toNat := h
          exact UInt32.toNat.inj this)
        subst hxy
        rcases ih ys with h1 | h1
        · left; simp [charListLeB, h1]
        · right; simp [charListLeB, h1]
      · right; simp [charListLeB, h]

theorem charListLeB_trans :
    ∀ a b c : List Char, charListLeB a b = true → charListLeB b c = true →
      charListLeB a c = true := by
  intro a
  induction a with
  | nil => intro b c _ _; cases c <;> simp [charListLeB]
  | cons x xs ih =>
    intro b c hab hbc
    cases b with
    | nil => simp [charListLeB] at hab
    | cons y ys =>
      cases c with
      | nil => simp [charListLeB] at hbc
      | cons z zs =>
        simp only [charListLeB] at hab hbc ⊢
        by_cases h1 : x.toNat < y.toNat
        · by_cases h2 : y.toNat < z.toNat
          · simp [Nat.lt_trans h1 h2]
          · simp only [if_pos h1] at hab
            rw [if_neg h2] at hbc
            by_cases h3 : y = z
            · subst h3; simp [h1]
            · simp [h3] at hbc
        · rw [if_neg h1] at hab
          by_cases h4 : x = y
          · subst h4
            simp only [if_pos rfl] at hab
            by_cases h2 : x.toNat < z.toNat
            · simp [h2]
            · rw [if_neg h2] at hbc ⊢
              by_cases h3 : x = z
              · subst h3
                simp only [if_pos rfl] at hbc ⊢
                exact ih ys zs hab hbc
              · simp [h3] at hbc
          · simp [h4] at hab

theorem pyStrLe_total : ∀ a b : String, pyStrLe a b ∨ pyStrLe b a :=
  fun a b => charListLeB_total a.data b.data

theorem pyStrLe_trans : Transitive pyStrLe :=
  fun a b c hab hbc => charListLeB_trans a.data b.data c.data hab hbc

/-! ## SIMP protocol (`src/core/simp.py`)

Envelopes are the `SIMPMessage` dataclass.  The free-form `context` dict
is modelled by a small inductive covering the context shapes the core
constructs: search queries, search results, error payloads (which nest the
original context), and an opaque remainder. -/

/-- Filter map passed to `query`: the orchestrator reads the keys
`silos` and `domains`, each defaulting to the empty list. -/
structure Filters where
  silos : List String := []
  domains : List String := []
  deriving DecidableEq, Repr

/-- A grant dict as the orchestrator sees it inside a search response:
`.get`-style access is modelled with `Option` fields (a missing key is
`none`).  `relevanceScore` is the float the orchestrator attaches in
`_aggregate_results`; floats compared and produced by `numpy` cosine
similarity are modelled as `ℝ`. -/
structure OGrant where
  title : Option String := none
  description : Option String := none
  deadline : Option String := none
  gid : Option String := none
  relevanceScore : Option ℝ := none
  nlmSource : Option String := none

inductive MessageType where
  | query
  | response
  | contextShare
  | error
  | notification
  | command
  deriving DecidableEq, Repr

inductive Intent where
  | search
  | analyze
  | validateIntent
  | fetch
  | update
  | status
  | scrape
  deriving DecidableEq, Repr

/-- The `.value` string of the `Intent` enum. -/
def Intent.value : Intent → String
  | .search => "search"
  | .analyze => "analyze"
  | .validateIntent => "validate"
  | .fetch => "fetch"
  | .update => "update"
  | .status => "status"
  | .scrape => "scrape"

inductive Ctx where
  | searchQuery (query : String) (maxResults : Nat) (filters : Filters)
  | searchResults (results : List OGrant) (total : Nat)
      (nlmId : String) (domain : String)
  | errCtx (message : String) (code : String) (original : Ctx)
  | empty
  | other (tag : String)

/-- The read `response.context.get("results", [])` performed by the
orchestrator on RESPONSE envelopes. -/
def Ctx.resultsOf : Ctx → List OGrant
  | .searchResults rs _ _ _ => rs
  | _ => []

/-- The read `response.context.get("error_message", "Unknown error")`. -/
def Ctx.errorMessageOf : Ctx → String
  | .errCtx msg _ _ => msg
  | _ => "Unknown error"

/-- The SIMP envelope.  `__post_init__` stamps `timestamp` and generates a
`correlation_id` when absent; constructors in this model receive those
effectful inputs explicitly, so `correlationId` is a plain string and
`timestamp` an optional clock reading. -/
structure SIMPMessage where
  version : String := "1.0"
  msgType : MessageType := .query
  sender : String := ""
  receiver : String := ""
  intent : Intent := .search
  context : Ctx := .empty
  embeddings : Option (List ℚ) := none
  correlationId : String := ""
  timestamp : Option ℚ := none
  ttl : ℚ := 300
  priority : Int := 1
  metadata : List (String × String) := []

/-- From `SIMPProtocol.validate_message`.  The `msg_type`/`intent` presence
checks of the source can never fire in a typed model (every enum member
has a non-empty string value, and Python only tests truthiness), so only
the `sender` check and the freshness check remain.  A message is stale
when its age strictly exceeds its `ttl`. -/
def validationError (now : ℚ) (m : SIMPMessage) : Option String :=
  if m.sender = "" then some "Missing sender"
  else
    match m.timestamp with
    | some ts => if now - ts > m.ttl then some "Message expired" else none
    | none => none

/-- From `SIMPMessage.create_response`: swapped endpoints, same correlation id,
copied version and priority. -/
def createResponse (m : SIMPMessage) (context : Ctx)
    (intent : Intent := .search) : SIMPMessage :=
  { version := m.version
    msgType := .response
    sender := m.receiver
    receiver := m.sender
    intent := intent
    context := context
    correlationId := m.correlationId
    priority := m.priority }

/-- From `SIMPMessage.create_error`: like `create_response` but an ERROR kind,
keeping the triggering intent and nesting the original context. -/
def createError (m : SIMPMessage) (errorMessage : String)
    (errorCode : String) : SIMPMessage :=
  { version := m.version
    msgType := .error
    sender := m.receiver
    receiver := m.sender
    intent := m.intent
    context := .errCtx errorMessage errorCode m.context
    correlationId := m.correlationId
    priority := m.priority }

/-- From `SIMPProtocol.add_to_history`: append, then keep only the last 1000
messages. -/
def addToHistory (h : List SIMPMessage) (m : SIMPMessage) :
    List SIMPMessage :=
  let h' := h ++ [m]
  if h'.length > 1000 then h'.drop (h'.length - 1000) else h'

/-! ## Agent message dispatch (`BaseNLM.process_message`)

An agent's mutable state, as far as dispatch touches it: the protocol
history ring and the `queries_handled` / `errors` counters.  A handler is
a function from the incoming envelope to either a reply envelope or a
raised exception (`Except.error` carries the exception text).  Handlers in
the repository never mutate this state. -/

structure AgentState where
  history : List SIMPMessage := []
  queriesHandled : Nat := 0
  errors : Nat := 0

def Handler : Type := SIMPMessage → Except String SIMPMessage

def HandlerTable : Type := Intent → Option Handler

/-- From `BaseNLM.process_message`: validate; on failure reply
`INVALID_MESSAGE` without touching state.  Otherwise record the incoming
message, dispatch to the handler for its intent (an unknown intent yields
a `NO_HANDLER` error reply), record the reply and bump `queries_handled`;
a handler exception yields a `PROCESSING_ERROR` reply and bumps the
`errors` counter instead. -/
def processMessage (handlers : HandlerTable) (now : ℚ) (m : SIMPMessage)
    (st : AgentState) : SIMPMessage × AgentState :=
  match validationError now m with
  | some err => (createError m err "INVALID_MESSAGE", st)
  | none =>
    let st1 : AgentState := { st with history := addToHistory st.history m }
    match handlers m.intent with
    | some h =>
      match h m with
      | .ok resp =>
        (resp, { st1 with
                  history := addToHistory st1.history resp
                  queriesHandled := st1.queriesHandled + 1 })
      | .error e =>
        (createError m e "PROCESSING_ERROR", { st1 with errors := st1.errors + 1 })
    | none =>
      let resp := createError m
        ("No handler for intent: " ++ m.intent.value) "NO_HANDLER"
      (resp, { st1 with
                history := addToHistory st1.history resp
                queriesHandled := st1.queriesHandled + 1 })

/-- Every handler registered by the repository's agents builds its reply
with `create_response` (or `create_error`) on the incoming message; this
predicate captures that discipline for a handler table. -/
def RepliesViaProtocol (handlers : HandlerTable) : Prop :=
  ∀ i h m r, handlers i = some h → h m = Except.ok r →
    (∃ ctx intent, r = createResponse m ctx intent) ∨
    (∃ e c, r = createError m e c)

theorem addToHistory_eq_append (h : List SIMPMessage) (m : SIMPMessage) :
    ∃ pre, addToHistory h m = pre ++ [m] := by
  unfold addToHistory
  by_cases hc : (h ++ [m]).length > 1000
  · rw [if_pos hc]
    have hlen : (h ++ [m]).length = h.length + 1 := by simp
    have hle : (h ++ [m]).length - 1000 ≤ h.length := by omega
    refine ⟨h.drop ((h ++ [m]).length - 1000), ?_⟩
    rw [List.drop_append_of_le_length hle]
  · rw [if_neg hc]
    exact ⟨h, rfl⟩

theorem mem_addToHistory_two (h : List SIMPMessage) (m r : SIMPMessage) :
    m ∈ addToHistory (addToHistory h m) r := by
  obtain ⟨pre, hpre⟩ := addToHistory_eq_append h m
  rw [hpre]
  unfold addToHistory
  by_cases hc : ((pre ++ [m]) ++ [r]).length > 1000
  · rw [if_pos hc]
    have hlen : ((pre ++ [m]) ++ [r]).length = pre.length + 2 := by simp
    have hle : ((pre ++ [m]) ++ [r]).length - 1000 ≤ pre.length := by omega
    have hle' : (pre ++ ([m] ++ [r])).length - 1000 ≤ pre.length := by
      simp only [List.length_append, List.length_cons] at hle ⊢
      omega
    rw [List.append_assoc, List.drop_append_of_le_length hle']
    simp
  · rw [if_neg hc]
    simp

/-- Concrete handler table used by witnesses: a single SEARCH handler that
replies through `create_response`, as the repository's default handlers
do. -/
def witnessHandlers : HandlerTable := fun i =>
  if i = Intent.search then
    some (fun m => Except.ok (createResponse m Ctx.empty Intent.search))
  else none

theorem witnessHandlers_proper : RepliesViaProtocol witnessHandlers := by
  intro i h m r hi hr
  by_cases his : i = Intent.search
  · subst his
    have heq : witnessHandlers Intent.search
        = some (fun m => Except.ok (createResponse m Ctx.empty Intent.search)) := rfl
    rw [heq] at hi
    injection hi with hi'
    subst hi'
    have hr' : Except.ok (createResponse m Ctx.empty Intent.search)
        = Except.ok r := hr
    injection hr' with hr''
    exact Or.inl ⟨Ctx.empty, Intent.search, hr''.symm⟩
  · simp [witnessHandlers, his] at hi

/-- Concrete valid envelope used by witnesses. -/
def witnessMsg : SIMPMessage :=
  { sender := "orchestrator", receiver := "iuk_nlm",
    correlationId := "corr-1", timestamp := some 0 }

/-- Claim C2: for every envelope E that passes validation and every agent
whose handlers reply through the protocol constructors, the envelope
returned by `process_message` keeps E's correlation id and version and
swaps sender and receiver, whether it is a RESPONSE or an ERROR. -/
theorem claim_C2_reply_invariants (handlers : HandlerTable) (now : ℚ)
    (E : SIMPMessage) (st : AgentState)
    (hproper : RepliesViaProtocol handlers)
    (hvalid : validationError now E = none) :
    (processMessage handlers now E st).1.correlationId = E.correlationId
    ∧ (processMessage handlers now E st).1.sender = E.receiver
    ∧ (processMessage handlers now E st).1.receiver = E.sender
    ∧ (processMessage handlers now E st).1.version = E.version := by
  simp only [processMessage, hvalid]
  cases hh : handlers E.intent with
  | none => simp [createError]
  | some h =>
    cases hr : h E with
    | ok resp =>
      simp only [hr]
      rcases hproper E.intent h E resp hh hr with ⟨ctx, i, hresp⟩ | ⟨e, c, hresp⟩
      · subst hresp; simp [createResponse]
      · subst hresp; simp [createError]
    | error e => simp only [hr]; simp [createError]

/-- Witness for C2 at a concrete valid envelope and handler table. -/
theorem claim_C2_witness :
    (processMessage witnessHandlers 0 witnessMsg {}).1.correlationId
        = witnessMsg.correlationId
    ∧ (processMessage witnessHandlers 0 witnessMsg {}).1.sender
        = witnessMsg.receiver
    ∧ (processMessage witnessHandlers 0 witnessMsg {}).1.receiver
        = witnessMsg.sender
    ∧ (processMessage witnessHandlers 0 witnessMsg {}).1.version
        = witnessMsg.version :=
  claim_C2_reply_invariants witnessHandlers 0 witnessMsg {}
    witnessHandlers_proper (by simp [validationError, witnessMsg])

/-- Claim C10: an envelope that fails validation is answered with an
`INVALID_MESSAGE` error envelope and leaves the agent state untouched —
no history entry, no counter change — whereas a validated envelope that
dispatches (including the `NO_HANDLER` case) is recorded in history and
bumps `queries_handled`. -/
theorem claim_C10_invalid_message_state (handlers : HandlerTable) (now : ℚ)
    (E : SIMPMessage) (st : AgentState) :
    (∀ err, validationError now E = some err →
      processMessage handlers now E st = (createError E err "INVALID_MESSAGE", st))
    ∧ (validationError now E = none →
        (handlers E.intent = none
          ∨ ∃ h r, handlers E.intent = some h ∧ h E = Except.ok r) →
        (processMessage handlers now E st).2.queriesHandled
            = st.queriesHandled + 1
        ∧ E ∈ (processMessage handlers now E st).2.history) := by
  constructor
  · intro err herr
    simp only [processMessage, herr]
  · intro hvalid hdisp
    simp only [processMessage, hvalid]
    rcases hdisp with hnone | ⟨h, r, hh, hr⟩
    · simp only [hnone]
      exact ⟨by trivial, mem_addToHistory_two st.history E _⟩
    · simp only [hh, hr]
      exact ⟨by trivial, mem_addToHistory_two st.history E r⟩

/-- Concrete invalid envelope (missing sender) used by the C10 witness. -/
def witnessBadMsg : SIMPMessage := { receiver := "iuk_nlm" }

/-- Concrete valid envelope whose intent has no registered handler. -/
def witnessStatusMsg : SIMPMessage :=
  { sender := "orchestrator", receiver := "iuk_nlm",
    correlationId := "corr-2", timestamp := some 0, intent := .status }

/-- Witness for C10: the invalid branch at a concrete sender-less
envelope, and the dispatch branch at a concrete `NO_HANDLER` envelope. -/
theorem claim_C10_witness :
    processMessage witnessHandlers 0 witnessBadMsg {}
        = (createError witnessBadMsg "Missing sender" "INVALID_MESSAGE", {})
    ∧ (processMessage witnessHandlers 0 witnessStatusMsg ({} : AgentState)).2.queriesHandled
        = ({} : AgentState).queriesHandled + 1
    ∧ witnessStatusMsg
        ∈ (processMessage witnessHandlers 0 witnessStatusMsg ({} : AgentState)).2.history := by
  refine ⟨?_, ?_, ?_⟩
  · exact (claim_C10_invalid_message_state witnessHandlers 0 witnessBadMsg {}).1
      "Missing sender" (by simp [validationError, witnessBadMsg])
  · exact ((claim_C10_invalid_message_state witnessHandlers 0 witnessStatusMsg {}).2
      (by simp [validationError, witnessStatusMsg]) (Or.inl (by rfl))).1
  · exact ((claim_C10_invalid_message_state witnessHandlers 0 witnessStatusMsg {}).2
      (by simp [validationError, witnessStatusMsg]) (Or.inl (by rfl))).2

/-! ## Orchestrator (`src/core/orchestrator.py`)

The orchestrator talks to registered agents through `process_message`; for
the fan-out the only thing that matters is what each agent answers on each
delivery attempt, so an agent is modelled as its identity tags plus a
behaviour function from (message, attempt number) to an outcome: a reply
envelope, a timeout, or a raised exception. -/

inductive AttemptOutcome where
  | reply (m : SIMPMessage)
  | timeout
  | exn (e : String)

structure NLM where
  nlmId : String
  domain : String
  silo : String
  behave : SIMPMessage → Nat → AttemptOutcome

/-- From `SiloRoutingStrategy.select_nlms`: an agent passes when the silo
filter is empty or contains its silo, and likewise for domains; an empty
selection falls back to all agents. -/
def nlmPasses (F : Filters) (n : NLM) : Bool :=
  (F.silos.isEmpty || F.silos.contains n.silo)
    && (F.domains.isEmpty || F.domains.contains n.domain)

def selectSiloNLMs (F : Filters) (nlms : List NLM) : List NLM :=
  let selected := nlms.filter (nlmPasses F)
  if selected.isEmpty then nlms else selected

/-- From `create_search_query` from `simp.py`; the generated correlation id and
the construction-time stamp are explicit inputs. -/
def createSearchQuery (sender query : String) (maxResults : Nat)
    (filters : Filters) (corr : String) (ts : Option ℚ) : SIMPMessage :=
  { msgType := .query
    sender := sender
    intent := .search
    context := .searchQuery query maxResults filters
    correlationId := corr
    timestamp := ts }

/-- From `Orchestrator._query_with_retry`: up to `remaining` attempts; any
reply envelope — RESPONSE or ERROR alike — is returned as soon as it
arrives, while a timeout or exception is retried until the attempts run
out and the last failure is raised. -/
def retryLoop (behave : Nat → AttemptOutcome) :
    Nat → Nat → Except String SIMPMessage
  | _, 0 => .error "RetryError"
  | attempt, r + 1 =>
    match behave attempt with
    | .reply m => .ok m
    | .timeout =>
      if r = 0 then .error "TimeoutError" else retryLoop behave (attempt + 1) r
    | .exn e =>
      if r = 0 then .error e else retryLoop behave (attempt + 1) r

def queryWithRetry (nlm : NLM) (msg : SIMPMessage) (maxRetries : Nat) :
    Except String SIMPMessage :=
  retryLoop (nlm.behave msg) 0 maxRetries

/-- Modelled from the spec: the retry semantics the specification
describes for §7, in which an ERROR reply is treated exactly like a
timeout or exception and retried up to the limit (the last attempt's
reply is then surfaced).  The source's `_query_with_retry` above is
compared against this in claim C5. -/
def specRetryErrorsRetried (behave : Nat → AttemptOutcome) :
    Nat → Nat → Except String SIMPMessage
  | _, 0 => .error "RetryError"
  | attempt, r + 1 =>
    match behave attempt with
    | .reply m =>
      if m.msgType = MessageType.error then
        if r = 0 then .ok m else specRetryErrorsRetried behave (attempt + 1) r
      else .ok m
    | .timeout =>
      if r = 0 then .error "TimeoutError"
      else specRetryErrorsRetried behave (attempt + 1) r
    | .exn e =>
      if r = 0 then .error e else specRetryErrorsRetried behave (attempt + 1) r

/-- The fan-out of `_execute_query`: one SEARCH envelope per selected
agent (fresh correlation id via `uuid`, addressed to the agent), each
wrapped in the retry helper; `asyncio.gather(..., return_exceptions=True)`
pairs every agent with either its reply or its raised exception, in task
order. -/
def fanoutLoop (q : String) (k : Nat) (F : Filters) (now : ℚ)
    (uuid : Nat → String) (i : Nat) :
    List NLM → List (NLM × Except String SIMPMessage)
  | [] => []
  | nlm :: rest =>
    let msg := { createSearchQuery "orchestrator" q k F (uuid i) (some now)
                  with receiver := nlm.nlmId }
    (nlm, queryWithRetry nlm msg 3) :: fanoutLoop q k F now uuid (i + 1) rest

/-! Aggregation.  The relevance score is the numpy cosine similarity of
the query embedding and a fresh embedding of the grant's title and
description.  Embedding vectors live in `List ℝ`; `np.dot` is the sum of
pointwise products over the common length. -/

def dotL (a b : List ℝ) : ℝ := (List.zipWith (fun x y => x * y) a b).sum

noncomputable def cosineSimilarity (a b : List ℝ) : ℝ :=
  dotL a b / (Real.sqrt (dotL a a) * Real.sqrt (dotL b b))

/-- The grant text embedded for scoring:
`f"{grant.get('title', '')} {grant.get('description', '')}"`. -/
def OGrant.text (g : OGrant) : String :=
  g.title.getD "" ++ " " ++ g.description.getD ""

/-- Sort key of `_aggregate_results` and `_merge_results`:
`(-g.get('relevance_score', 0), g.get('deadline', '9999-12-31'))`,
compared ascending and lexicographically. -/
def aggLe (a b : OGrant) : Prop :=
  -(a.relevanceScore.getD 0) < -(b.relevanceScore.getD 0)
  ∨ (-(a.relevanceScore.getD 0) = -(b.relevanceScore.getD 0)
      ∧ pyStrLe (a.deadline.getD "9999-12-31") (b.deadline.getD "9999-12-31"))

noncomputable instance : DecidableRel aggLe :=
  fun _ _ => Classical.propDecidable _

theorem aggLe_total : ∀ a b : OGrant, aggLe a b ∨ aggLe b a := by
  intro a b
  rcases lt_trichotomy (-(a.relevanceScore.getD 0)) (-(b.relevanceScore.getD 0))
    with h | h | h
  · exact Or.inl (Or.inl h)
  · rcases pyStrLe_total (a.deadline.getD "9999-12-31")
      (b.deadline.getD "9999-12-31") with h2 | h2
    · exact Or.inl (Or.inr ⟨h, h2⟩)
    · exact Or.inr (Or.inr ⟨h.symm, h2⟩)
  · exact Or.inr (Or.inl h)

theorem aggLe_trans : Transitive aggLe := by
  intro a b c hab hbc
  rcases hab with h1 | ⟨h1, h1'⟩
  · rcases hbc with h2 | ⟨h2, _⟩
    · exact Or.inl (lt_trans h1 h2)
    · exact Or.inl (h2 ▸ h1)
  · rcases hbc with h2 | ⟨h2, h2'⟩
    · exact Or.inl (h1 ▸ h2)
    · exact Or.inr ⟨h1.trans h2, pyStrLe_trans h1' h2'⟩

/-- Scoring step applied to every grant of a RESPONSE in
`_aggregate_results`: attach the cosine relevance and the source agent. -/
noncomputable def scoreGrant (embed : String → List ℝ) (qEmb : List ℝ)
    (nlmId : String) (g : OGrant) : OGrant :=
  { g with relevanceScore := some (cosineSimilarity qEmb (embed g.text))
           nlmSource := some nlmId }

/-- The collection loop of `_aggregate_results`: exceptions and ERROR
replies land in the error list, RESPONSE replies contribute their scored
grants and their agent id; any other message kind is ignored. -/
def collectOutcomes (score : String → OGrant → OGrant) :
    List (NLM × Except String SIMPMessage) →
    List OGrant × List String × List (String × String)
  | [] => ([], [], [])
  | (nlm, out) :: rest =>
    let (gs, ids, errs) := collectOutcomes score rest
    match out with
    | .error e => (gs, ids, (nlm.nlmId, e) :: errs)
    | .ok m =>
      if m.msgType = MessageType.response then
        (m.context.resultsOf.map (score nlm.nlmId) ++ gs, nlm.nlmId :: ids, errs)
      else if m.msgType = MessageType.error then
        (gs, ids, (nlm.nlmId, m.context.errorMessageOf) :: errs)
      else (gs, ids, errs)

/-- The aggregated response dict assembled by `_aggregate_results`
(wall-clock fields — `processing_time_ms` — are outside the model). -/
structure AggResult where
  query : String
  nlmsQueried : List String
  totalResults : Nat
  grants : List OGrant
  smeContext : Option String := none
  errors : Option (List (String × String)) := none
  fromCache : Option Bool := none
  cacheAgeSeconds : Option ℚ := none
  decomposed : Option Bool := none
  subQueryCount : Option Nat := none

noncomputable def aggregateResults (embed : String → List ℝ) (q : String)
    (outcomes : List (NLM × Except String SIMPMessage))
    (sme : Option String) : AggResult :=
  let qEmb := embed q
  let c := collectOutcomes (scoreGrant embed qEmb) outcomes
  let sorted := pySort aggLe c.1
  { query := q
    nlmsQueried := c.2.1
    totalResults := sorted.length
    grants := sorted
    smeContext := sme
    errors := if c.2.2 = [] then none else some c.2.2 }

/-- From `_execute_query` without an expert-hints agent registered (the model
has no SME stream, so `sme_context` stays `None` as in the source when
`sme_context_nlm` is unset). -/
noncomputable def executeQuery (nlms : List NLM) (embed : String → List ℝ)
    (uuid : Nat → String) (now : ℚ) (q : String) (k : Nat) (F : Filters) :
    AggResult :=
  let targets := selectSiloNLMs F nlms
  aggregateResults embed q (fanoutLoop q k F now uuid 0 targets) none

/-! Complex-query decomposition. -/

def complexityIndicators : List String :=
  [" and ", " or ", " with ", " for ",
   "ai medical", "uk startup", "health tech",
   "multiple", "different", "various"]

def isComplexQuery (q : String) : Bool :=
  complexityIndicators.any (fun ind => pyContains (pyLower q) ind)

def geoTerms : List (String × List String) :=
  [("uk", ["UK"]), ("eu", ["EU"]), ("europe", ["EU"]), ("us", ["US"])]

def domainTerms : List (String × List String) :=
  [("medical", ["nihr"]), ("health", ["nihr"]),
   ("innovation", ["innovate_uk"]), ("research", ["ukri"]),
   ("horizon", ["horizon_europe"])]

/-- From `_decompose_query`: one sub-query per matched geographic term (silo
filter slice) and per matched domain term (domain filter slice); the
original query if nothing matched. -/
def decomposeQuery (q : String) (k : Nat) (F : Filters) :
    List (String × Filters × Nat) :=
  let ql := pyLower q
  let geo := geoTerms.filterMap fun p =>
    if pyContains ql p.1 then some (q, { F with silos := p.2 }, k) else none
  let dom := domainTerms.filterMap fun p =>
    if pyContains ql p.1 then some (q, { F with domains := p.2 }, k) else none
  let subs := geo ++ dom
  if subs.isEmpty then [(q, F, k)] else subs

/-- Identifier used by `_merge_results` for deduplication:
`grant.get('id') or grant.get('title', '')`. -/
def mergeIdent (g : OGrant) : String :=
  match g.gid with
  | some s => if s = "" then g.title.getD "" else s
  | none => g.title.getD ""

def dedupGrants : List OGrant → List String → List OGrant
  | [], _ => []
  | g :: gs, seen =>
    let i := mergeIdent g
    if i ≠ "" ∧ i ∉ seen then g :: dedupGrants gs (i :: seen)
    else dedupGrants gs seen

/-- From `_merge_results`: union the sub-query answers, deduplicate by grant
identifier (grants with neither id nor title are dropped), re-sort with
the aggregation key, and mark the response as decomposed. -/
noncomputable def mergeResults (subResults : List AggResult)
    (originalQuery : String) : AggResult :=
  let allGrants := (subResults.map (·.grants)).flatten
  let allIds := ((subResults.map (·.nlmsQueried)).flatten).dedup
  let allErrors := (subResults.filterMap (·.errors)).flatten
  let uniqueGrants := dedupGrants allGrants []
  let sorted := pySort aggLe uniqueGrants
  { query := originalQuery
    nlmsQueried := allIds
    totalResults := sorted.length
    grants := sorted
    decomposed := some true
    subQueryCount := some subResults.length
    errors := if allErrors = [] then none else some allErrors }

/-! The result cache.  The cache key in the source is the md5 digest of
`f"{query}:{max_results}:{json.dumps(filters, sort_keys=True)}"`; the
digest is a deterministic function of the `(query, max_results, filters)`
triple, so the model uses the triple itself as the key (equal triples give
equal digests; distinct triples are treated as distinct keys, which is how
distinct digests behave). -/

abbrev CacheKey : Type := String × Nat × Filters

abbrev Cache : Type := List (CacheKey × AggResult × ℚ)

def cacheLookup (c : Cache) (k : CacheKey) : Option (AggResult × ℚ) :=
  match c with
  | [] => none
  | (k', v) :: rest => if k' = k then some v else cacheLookup rest k

def cacheSet (c : Cache) (k : CacheKey) (v : AggResult × ℚ) : Cache :=
  match c with
  | [] => [(k, v)]
  | (k', v') :: rest =>
    if k' = k then (k, v) :: rest else (k', v') :: cacheSet rest k v

/-- From `_prune_cache`: drop every entry whose age strictly exceeds the TTL
(3600 s); nothing else is evicted. -/
def pruneCache (now : ℚ) (c : Cache) : Cache :=
  c.filter fun e => !(decide (now - e.2.2 > 3600))

/-- The store step of `query` (lines 216–221): store the result, then
prune only when the entry count exceeds 1000. -/
def storeAndPrune (c : Cache) (k : CacheKey) (res : AggResult) (now : ℚ) :
    Cache :=
  let c' := cacheSet c k (res, now)
  if c'.length > 1000 then pruneCache now c' else c'

/-- Orchestrator state touched by `query`: the cache and the hit/miss
counters. -/
structure OrchState where
  cache : Cache := []
  cacheHits : Nat := 0
  cacheMisses : Nat := 0

/-- The result computed on a cache miss: decomposition plus merge for a
complex query, a single `_execute_query` otherwise. -/
noncomputable def missResult (nlms : List NLM) (embed : String → List ℝ)
    (uuid : Nat → String) (now : ℚ) (q : String) (k : Nat) (F : Filters) :
    AggResult :=
  if isComplexQuery q then
    mergeResults
      ((decomposeQuery q k F).map fun sq =>
        executeQuery nlms embed uuid now sq.1 sq.2.2 sq.2.1) q
  else executeQuery nlms embed uuid now q k F

/-- From `Orchestrator.query`: serve a fresh-enough cached response (mutating
the stored dict with `from_cache`/`cache_age_seconds` — the value model
also writes the mutated entry back, matching the in-place update),
otherwise execute (decomposing complex queries), store and prune. -/
noncomputable def queryModel (nlms : List NLM) (embed : String → List ℝ)
    (uuid : Nat → String) (st : OrchState) (q : String) (k : Nat)
    (F : Filters) (now : ℚ) : AggResult × OrchState :=
  let key : CacheKey := (q, k, F)
  let missPath : AggResult × OrchState :=
    let result := missResult nlms embed uuid now q k F
    (result,
      { st with cacheMisses := st.cacheMisses + 1
                cache := storeAndPrune st.cache key result now })
  match cacheLookup st.cache key with
  | some (cached, ts) =>
    let age := now - ts
    if age < 3600 then
      let updated := { cached with fromCache := some true
                                   cacheAgeSeconds := some age }
      (updated,
        { st with cacheHits := st.cacheHits + 1
                  cache := cacheSet st.cache key (updated, ts) })
    else missPath
  | none => missPath

/-! ## Claim C5: treatment of ERROR replies in the fan-out -/

theorem collect_mem_errs_of_exn (score : String → OGrant → OGrant)
    (outcomes : List (NLM × Except String SIMPMessage)) (nlm : NLM)
    (e : String) (hmem : (nlm, Except.error e) ∈ outcomes) :
    (nlm.nlmId, e) ∈ (collectOutcomes score outcomes).2.2 := by
  induction outcomes with
  | nil => cases hmem
  | cons p rest ih =>
    rcases List.mem_cons.mp hmem with heq | hrest
    · subst heq
      simp [collectOutcomes]
    · obtain ⟨nlm', out'⟩ := p
      have hmem' := ih hrest
      cases out' with
      | error e' => simp [collectOutcomes, hmem']
      | ok m =>
        by_cases h1 : m.msgType = MessageType.response
        · simp [collectOutcomes, h1, hmem']
        · by_cases h2 : m.msgType = MessageType.error
          · simp [collectOutcomes, h1, h2, hmem']
          · simp [collectOutcomes, h1, h2, hmem']

theorem collect_mem_errs_of_error_reply (score : String → OGrant → OGrant)
    (outcomes : List (NLM × Except String SIMPMessage)) (nlm : NLM)
    (m : SIMPMessage) (hmem : (nlm, Except.ok m) ∈ outcomes)
    (herr : m.msgType = MessageType.error) :
    (nlm.nlmId, m.context.errorMessageOf) ∈ (collectOutcomes score outcomes).2.2 := by
  induction outcomes with
  | nil => cases hmem
  | cons p rest ih =>
    rcases List.mem_cons.mp hmem with heq | hrest
    · subst heq
      have h1 : m.msgType ≠ MessageType.response := by
        rw [herr]; intro h; cases h
      simp [collectOutcomes, h1, herr]
    · obtain ⟨nlm', out'⟩ := p
      have hmem' := ih hrest
      cases out' with
      | error e' => simp [collectOutcomes, hmem']
      | ok m' =>
        by_cases h1 : m'.msgType = MessageType.response
        · simp [collectOutcomes, h1, hmem']
        · by_cases h2 : m'.msgType = MessageType.error
          · simp [collectOutcomes, h1, h2, hmem']
          · simp [collectOutcomes, h1, h2, hmem']

theorem collect_grants_from_responses (score : String → OGrant → OGrant)
    (outcomes : List (NLM × Except String SIMPMessage)) (g : OGrant)
    (hg : g ∈ (collectOutcomes score outcomes).1) :
    ∃ nlm m, (nlm, Except.ok m) ∈ outcomes
      ∧ m.msgType = MessageType.response
      ∧ ∃ g0 ∈ m.context.resultsOf, g = score nlm.nlmId g0 := by
  induction outcomes with
  | nil => cases hg
  | cons p rest ih =>
    obtain ⟨nlm', out'⟩ := p
    cases out' with
    | error e' =>
      simp only [collectOutcomes] at hg
      obtain ⟨nlm, m, hm, hty, hwit⟩ := ih hg
      exact ⟨nlm, m, List.mem_cons_of_mem _ hm, hty, hwit⟩
    | ok m' =>
      simp only [collectOutcomes] at hg
      by_cases h1 : m'.msgType = MessageType.response
      · rw [if_pos h1] at hg
        rcases List.mem_append.mp hg with hin | hrest2
        · obtain ⟨g0, hg0, hge⟩ := List.mem_map.mp hin
          exact ⟨nlm', m', List.mem_cons_self _ _, h1, g0, hg0, hge.symm⟩
        · obtain ⟨nlm, m, hm, hty, hwit⟩ := ih hrest2
          exact ⟨nlm, m, List.mem_cons_of_mem _ hm, hty, hwit⟩
      · rw [if_neg h1] at hg
        by_cases h2 : m'.msgType = MessageType.error
        · rw [if_pos h2] at hg
          obtain ⟨nlm, m, hm, hty, hwit⟩ := ih hg
          exact ⟨nlm, m, List.mem_cons_of_mem _ hm, hty, hwit⟩
        · rw [if_neg h2] at hg
          obtain ⟨nlm, m, hm, hty, hwit⟩ := ih hg
          exact ⟨nlm, m, List.mem_cons_of_mem _ hm, hty, hwit⟩

/-- Helper: a pair recorded in the raw error list is in the reported
`errors` field (which is `None` only when no errors occurred). -/
theorem mem_agg_errors (embed : String → List ℝ) (q : String)
    (outcomes : List (NLM × Except String SIMPMessage)) (sme : Option String)
    (p : String × String)
    (hp : p ∈ (collectOutcomes (scoreGrant embed (embed q)) outcomes).2.2) :
    p ∈ (aggregateResults embed q outcomes sme).errors.getD [] := by
  unfold aggregateResults
  by_cases hnil : (collectOutcomes (scoreGrant embed (embed q)) outcomes).2.2 = []
  · rw [hnil] at hp; cases hp
  · simp only [if_neg hnil]
    simpa using hp

/-- Claim C5 (amended): `_query_with_retry` returns a reply envelope on
the attempt it arrives — an ERROR reply included, so ERROR envelopes are
not retried; only timeouts and raised exceptions are.  Aggregation then
treats ERROR replies and exceptions uniformly: both are recorded in the
`errors` list, and every returned grant stems from a RESPONSE reply, so
failed agents contribute no grants. -/
theorem claim_C5_error_envelope_fanout (behave : Nat → AttemptOutcome)
    (a r : Nat) (m : SIMPMessage)
    (hreply : behave a = AttemptOutcome.reply m)
    (embed : String → List ℝ) (q : String)
    (outcomes : List (NLM × Except String SIMPMessage)) (sme : Option String) :
    retryLoop behave a (r + 1) = Except.ok m
    ∧ (∀ nlm e, (nlm, Except.error e) ∈ outcomes →
        (nlm.nlmId, e) ∈ (aggregateResults embed q outcomes sme).errors.getD [])
    ∧ (∀ nlm m', (nlm, Except.ok m') ∈ outcomes →
        m'.msgType = MessageType.error →
        (nlm.nlmId, m'.context.errorMessageOf)
          ∈ (aggregateResults embed q outcomes sme).errors.getD [])
    ∧ (∀ g ∈ (aggregateResults embed q outcomes sme).grants,
        ∃ nlm m', (nlm, Except.ok m') ∈ outcomes
          ∧ m'.msgType = MessageType.response
          ∧ ∃ g0 ∈ m'.context.resultsOf,
              g = scoreGrant embed (embed q) nlm.nlmId g0) := by
  refine ⟨by simp [retryLoop, hreply], ?_, ?_, ?_⟩
  · intro nlm e hmem
    exact mem_agg_errors embed q outcomes sme _
      (collect_mem_errs_of_exn _ outcomes nlm e hmem)
  · intro nlm m' hmem herr
    exact mem_agg_errors embed q outcomes sme _
      (collect_mem_errs_of_error_reply _ outcomes nlm m' hmem herr)
  · intro g hg
    have hg' : g ∈ (collectOutcomes (scoreGrant embed (embed q)) outcomes).1 := by
      have := hg
      unfold aggregateResults at this
      simpa [mem_pySort] using this
    exact collect_grants_from_responses _ outcomes g hg'

/-- Concrete ERROR reply used for C5. -/
def errReplyC5 : SIMPMessage :=
  { msgType := .error, sender := "iuk_nlm", receiver := "orchestrator",
    context := .errCtx "search backend unavailable" "PROCESSING_ERROR" .empty,
    correlationId := "corr-5" }

/-- Concrete RESPONSE reply used for C5. -/
def okReplyC5 : SIMPMessage :=
  { msgType := .response, sender := "iuk_nlm", receiver := "orchestrator",
    context := .searchResults [{ title := some "Smart Grants Spring" }] 1
      "iuk_nlm" "innovate_uk",
    correlationId := "corr-5" }

/-- Agent that answers the first delivery with an ERROR envelope and any
retry with a RESPONSE. -/
def nlmC5 : NLM :=
  { nlmId := "iuk_nlm", domain := "innovate_uk", silo := "UK",
    behave := fun _ attempt =>
      if attempt = 0 then .reply errReplyC5 else .reply okReplyC5 }

def searchMsgC5 : SIMPMessage :=
  createSearchQuery "orchestrator" "clinical trials" 10 {} "corr-5" (some 0)

/-- Counterexample to claim C5 as stated: against an agent whose first
reply is an ERROR envelope and whose retries would succeed, the source's
retry helper returns the ERROR envelope from the first attempt — it is
not retried — whereas the retry semantics the claim describes (ERROR
treated like a timeout) would return the successful RESPONSE. -/
theorem claim_C5_counterexample :
    queryWithRetry nlmC5 searchMsgC5 3 = Except.ok errReplyC5
    ∧ errReplyC5.msgType = MessageType.error
    ∧ specRetryErrorsRetried (nlmC5.behave searchMsgC5) 0 3 = Except.ok okReplyC5
    ∧ errReplyC5 ≠ okReplyC5 := by
  refine ⟨rfl, rfl, rfl, ?_⟩
  intro h
  exact MessageType.noConfusion (congrArg SIMPMessage.msgType h)

/-- Witness for the amended C5 at a concrete outcome list containing one
exception and one ERROR reply. -/
theorem claim_C5_witness :
    retryLoop (fun _ => AttemptOutcome.reply okReplyC5) 0 3 = Except.ok okReplyC5
    ∧ (nlmC5.nlmId, "TimeoutError")
        ∈ (aggregateResults (fun _ => [1]) "clinical trials"
            [(nlmC5, Except.error "TimeoutError"), (nlmC5, Except.ok errReplyC5)]
            none).errors.getD []
    ∧ (nlmC5.nlmId, errReplyC5.context.errorMessageOf)
        ∈ (aggregateResults (fun _ => [1]) "clinical trials"
            [(nlmC5, Except.error "TimeoutError"), (nlmC5, Except.ok errReplyC5)]
            none).errors.getD [] := by
  have h := claim_C5_error_envelope_fanout
    (fun _ => AttemptOutcome.reply okReplyC5) 0 2 okReplyC5 rfl
    (fun _ => [1]) "clinical trials"
    [(nlmC5, Except.error "TimeoutError"), (nlmC5, Except.ok errReplyC5)] none
  refine ⟨h.1, ?_, ?_⟩
  · exact h.2.1 nlmC5 "TimeoutError" (List.mem_cons_self _ _)
  · exact h.2.2.1 nlmC5 errReplyC5
      (List.mem_cons_of_mem _ (List.mem_cons_self _ _)) rfl

/-! ## Cosine similarity bounds (Cauchy–Schwarz for `dotL`) -/

theorem dotL_eq_sum_range (a : List ℝ) : ∀ b : List ℝ,
    dotL a b = ∑ i in Finset.range (min a.length b.length),
      a.getD i 0 * b.getD i 0 := by
  induction a with
  | nil => intro b; simp [dotL]
  | cons x as ih =>
    intro b
    cases b with
    | nil => simp [dotL]
    | cons y bs =>
      have hmin : min (x :: as).length (y :: bs).length
          = min as.length bs.length + 1 := by
        simp [Nat.succ_min_succ]
      rw [hmin, Finset.sum_range_succ']
      have hx : (x :: as).getD 0 0 * (y :: bs).getD 0 0 = x * y := by simp
      have hs : ∀ i, (x :: as).getD (i + 1) 0 * (y :: bs).getD (i + 1) 0
          = as.getD i 0 * bs.getD i 0 := by intro i; simp
      simp only [hx, hs]
      have hd : dotL (x :: as) (y :: bs) = x * y + dotL as bs := by
        simp [dotL]
      rw [hd, ih bs]
      ring

theorem dotL_self_nonneg (a : List ℝ) : 0 ≤ dotL a a := by
  rw [dotL_eq_sum_range]
  exact Finset.sum_nonneg fun i _ => mul_self_nonneg _

theorem sum_sq_range_le_dotL_self (a : List ℝ) (n : ℕ) (hn : n ≤ a.length) :
    ∑ i in Finset.range n, a.getD i 0 * a.getD i 0 ≤ dotL a a := by
  rw [dotL_eq_sum_range, min_self]
  exact Finset.sum_le_sum_of_subset_of_nonneg
    (Finset.range_subset.mpr hn) (fun i _ _ => mul_self_nonneg _)

theorem dotL_sq_le (a b : List ℝ) : (dotL a b) ^ 2 ≤ dotL a a * dotL b b := by
  rw [dotL_eq_sum_range a b]
  calc (∑ i in Finset.range (min a.length b.length),
        a.getD i 0 * b.getD i 0) ^ 2
      ≤ (∑ i in Finset.range (min a.length b.length), a.getD i 0 ^ 2)
        * (∑ i in Finset.range (min a.length b.length), b.getD i 0 ^ 2) :=
        Finset.sum_mul_sq_le_sq_mul_sq _ _ _
    _ ≤ dotL a a * dotL b b := by
        have ha := sum_sq_range_le_dotL_self a (min a.length b.length)
          (min_le_left _ _)
        have hb := sum_sq_range_le_dotL_self b (min a.length b.length)
          (min_le_right _ _)
        simp only [pow_two]
        exact mul_le_mul ha hb
          (Finset.sum_nonneg fun i _ => mul_self_nonneg _)
          (dotL_self_nonneg a)

theorem cosineSimilarity_bounds (a b : List ℝ)
    (ha : dotL a a ≠ 0) (hb : dotL b b ≠ 0) :
    -1 ≤ cosineSimilarity a b ∧ cosineSimilarity a b ≤ 1 := by
  have hA : 0 < dotL a a := lt_of_le_of_ne (dotL_self_nonneg a) (Ne.symm ha)
  have hB : 0 < dotL b b := lt_of_le_of_ne (dotL_self_nonneg b) (Ne.symm hb)
  have hden : 0 < Real.sqrt (dotL a a) * Real.sqrt (dotL b b) :=
    mul_pos (Real.sqrt_pos.mpr hA) (Real.sqrt_pos.mpr hB)
  have habs : |dotL a b| ≤ Real.sqrt (dotL a a) * Real.sqrt (dotL b b) := by
    have h1 : |dotL a b| = Real.sqrt ((dotL a b) ^ 2) :=
      (Real.sqrt_sq_eq_abs _).symm
    rw [h1, ← Real.sqrt_mul (le_of_lt hA)]
    exact Real.sqrt_le_sqrt (dotL_sq_le a b)
  have : |cosineSimilarity a b| ≤ 1 := by
    rw [cosineSimilarity, abs_div, abs_of_pos hden]
    exact (div_le_one hden).mpr habs
  exact ⟨neg_le_of_abs_le this, le_of_abs_le this⟩

/-! ## Claim C1: shape of the aggregated response -/

theorem retryLoop_ok_behave (behave : Nat → AttemptOutcome) :
    ∀ r a m, retryLoop behave a r = Except.ok m →
      ∃ a', behave a' = AttemptOutcome.reply m := by
  intro r
  induction r with
  | zero => intro a m h; cases h
  | succ r ih =>
    intro a m h
    simp only [retryLoop] at h
    split at h
    next m' heq =>
      cases h
      exact ⟨a, heq⟩
    next heq =>
      by_cases hr : r = 0
      · rw [if_pos hr] at h; cases h
      · rw [if_neg hr] at h; exact ih (a + 1) m h
    next e heq =>
      by_cases hr : r = 0
      · rw [if_pos hr] at h; cases h
      · rw [if_neg hr] at h; exact ih (a + 1) m h

theorem fanoutLoop_mem (q : String) (k : Nat) (F : Filters) (now : ℚ)
    (uuid : Nat → String) :
    ∀ (ts : List NLM) (i : Nat) (p : NLM × Except String SIMPMessage),
      p ∈ fanoutLoop q k F now uuid i ts →
      p.1 ∈ ts ∧ ∃ msg, p.2 = queryWithRetry p.1 msg 3 := by
  intro ts
  induction ts with
  | nil => intro i p hp; cases hp
  | cons nlm rest ih =>
    intro i p hp
    simp only [fanoutLoop] at hp
    rcases List.mem_cons.mp hp with heq | hrest
    · subst heq
      exact ⟨List.mem_cons_self _ _, _, rfl⟩
    · obtain ⟨hmem, hw⟩ := ih (i + 1) p hrest
      exact ⟨List.mem_cons_of_mem _ hmem, hw⟩

theorem fanoutLoop_length (q : String) (k : Nat) (F : Filters) (now : ℚ)
    (uuid : Nat → String) :
    ∀ (ts : List NLM) (i : Nat),
      (fanoutLoop q k F now uuid i ts).length = ts.length := by
  intro ts
  induction ts with
  | nil => intro i; rfl
  | cons nlm rest ih => intro i; simp [fanoutLoop, ih]

theorem selectSiloNLMs_mem (F : Filters) (nlms : List NLM) (n : NLM)
    (hn : n ∈ selectSiloNLMs F nlms) : n ∈ nlms := by
  unfold selectSiloNLMs at hn
  by_cases he : (nlms.filter (nlmPasses F)).isEmpty
  · rw [if_pos he] at hn; exact hn
  · rw [if_neg he] at hn; exact List.mem_of_mem_filter hn

theorem selectSiloNLMs_length_le (F : Filters) (nlms : List NLM) :
    (selectSiloNLMs F nlms).length ≤ nlms.length := by
  unfold selectSiloNLMs
  by_cases he : (nlms.filter (nlmPasses F)).isEmpty
  · rw [if_pos he]
  · rw [if_neg he]; exact List.length_filter_le _ _

theorem collect_length_le (score : String → OGrant → OGrant) (k : Nat) :
    ∀ outcomes : List (NLM × Except String SIMPMessage),
      (∀ nlm m, (nlm, Except.ok m) ∈ outcomes →
        m.msgType = MessageType.response → m.context.resultsOf.length ≤ k) →
      (collectOutcomes score outcomes).1.length ≤ k * outcomes.length := by
  intro outcomes
  induction outcomes with
  | nil => intro _; simp [collectOutcomes]
  | cons p rest ih =>
    intro hb
    obtain ⟨nlm', out'⟩ := p
    have hrest := ih fun nlm m hm hty =>
      hb nlm m (List.mem_cons_of_mem _ hm) hty
    cases out' with
    | error e =>
      simp only [collectOutcomes, List.length_cons]
      calc (collectOutcomes score rest).1.length
          ≤ k * rest.length := hrest
        _ ≤ k * (rest.length + 1) := Nat.mul_le_mul_left k (by omega)
    | ok m' =>
      simp only [collectOutcomes, List.length_cons]
      by_cases h1 : m'.msgType = MessageType.response
      · rw [if_pos h1]
        have hlen : m'.context.resultsOf.length ≤ k :=
          hb nlm' m' (List.mem_cons_self _ _) h1
        simp only [List.length_append, List.length_map]
        calc m'.context.resultsOf.length + (collectOutcomes score rest).1.length
            ≤ k + k * rest.length := Nat.add_le_add hlen hrest
          _ = k * (rest.length + 1) := by ring
      · rw [if_neg h1]
        by_cases h2 : m'.msgType = MessageType.error
        · rw [if_pos h2]
          calc (collectOutcomes score rest).1.length
              ≤ k * rest.length := hrest
            _ ≤ k * (rest.length + 1) := Nat.mul_le_mul_left k (by omega)
        · rw [if_neg h2]
          calc (collectOutcomes score rest).1.length
              ≤ k * rest.length := hrest
            _ ≤ k * (rest.length + 1) := Nat.mul_le_mul_left k (by omega)

/-- Claim C1 (amended): on a cache miss for a non-decomposed query, the
response of the public `query` holds at most `k · |registered agents|`
grants (each agent's RESPONSE carries at most `k` results, but the
aggregation concatenates them without truncating to `k`); every grant
carries a relevance score — the cosine similarity of nonzero embeddings —
in [−1, 1]; and the list is sorted non-increasing by relevance. -/
theorem claim_C1_query_bounds (nlms : List NLM) (embed : String → List ℝ)
    (uuid : Nat → String) (st : OrchState) (q : String) (k : Nat)
    (F : Filters) (now : ℚ)
    (hmiss : cacheLookup st.cache (q, k, F) = none)
    (hsimple : isComplexQuery q = false)
    (hbound : ∀ nlm ∈ nlms, ∀ msg a m,
      nlm.behave msg a = AttemptOutcome.reply m →
      m.msgType = MessageType.response → m.context.resultsOf.length ≤ k)
    (hembed : ∀ s, dotL (embed s) (embed s) ≠ 0) :
    (queryModel nlms embed uuid st q k F now).1.grants.length ≤ k * nlms.length
    ∧ (∀ g ∈ (queryModel nlms embed uuid st q k F now).1.grants,
        ∃ rscore, g.relevanceScore = some rscore ∧ -1 ≤ rscore ∧ rscore ≤ 1)
    ∧ (queryModel nlms embed uuid st q k F now).1.grants.Pairwise
        (fun g1 g2 => g2.relevanceScore.getD 0 ≤ g1.relevanceScore.getD 0) := by
  have hq : (queryModel nlms embed uuid st q k F now).1
      = executeQuery nlms embed uuid now q k F := by
    simp only [queryModel, hmiss, missResult, hsimple, if_false,
      Bool.false_eq_true]
  rw [hq]
  have hgr : (executeQuery nlms embed uuid now q k F).grants
      = pySort aggLe
          (collectOutcomes (scoreGrant embed (embed q))
            (fanoutLoop q k F now uuid 0 (selectSiloNLMs F nlms))).1 := rfl
  refine ⟨?_, ?_, ?_⟩
  · rw [hgr, length_pySort]
    have hb' : ∀ nlm m,
        (nlm, Except.ok m) ∈ fanoutLoop q k F now uuid 0 (selectSiloNLMs F nlms) →
        m.msgType = MessageType.response → m.context.resultsOf.length ≤ k := by
      intro nlm m hm hty
      obtain ⟨hmem, msg, hw⟩ := fanoutLoop_mem q k F now uuid _ 0 (nlm, .ok m) hm
      obtain ⟨a', hb'⟩ := retryLoop_ok_behave (nlm.behave msg) 3 0 m hw.symm
      exact hbound nlm (selectSiloNLMs_mem F nlms nlm hmem) msg a' m hb' hty
    calc (collectOutcomes (scoreGrant embed (embed q))
            (fanoutLoop q k F now uuid 0 (selectSiloNLMs F nlms))).1.length
        ≤ k * (fanoutLoop q k F now uuid 0 (selectSiloNLMs F nlms)).length :=
          collect_length_le _ k _ hb'
      _ = k * (selectSiloNLMs F nlms).length := by rw [fanoutLoop_length]
      _ ≤ k * nlms.length :=
          Nat.mul_le_mul_left k (selectSiloNLMs_length_le F nlms)
  · intro g hg
    rw [hgr] at hg
    have hg' := (mem_pySort aggLe g _).mp hg
    obtain ⟨nlm, m, _, _, g0, _, hge⟩ :=
      collect_grants_from_responses _ _ g hg'
    refine ⟨cosineSimilarity (embed q) (embed g0.text), ?_, ?_, ?_⟩
    · rw [hge]; rfl
    · exact (cosineSimilarity_bounds _ _ (hembed q) (hembed g0.text)).1
    · exact (cosineSimilarity_bounds _ _ (hembed q) (hembed g0.text)).2
  · rw [hgr]
    have hp := pairwise_pySort aggLe aggLe_total aggLe_trans
      (collectOutcomes (scoreGrant embed (embed q))
        (fanoutLoop q k F now uuid 0 (selectSiloNLMs F nlms))).1
    refine hp.imp ?_
    intro g1 g2 h12
    rcases h12 with hlt | ⟨heq, _⟩
    · have := neg_lt_neg_iff.mp hlt
      exact le_of_lt this
    · have : g1.relevanceScore.getD 0 = g2.relevanceScore.getD 0 :=
        neg_injective heq
      exact le_of_eq this.symm

/-- Concrete grants and agents for the C1 counterexample and witness. -/
def gA : OGrant := { title := some "Smart Grants Spring" }

def gB : OGrant := { title := some "Research for Patient Benefit" }

def nlmA : NLM :=
  { nlmId := "iuk_nlm", domain := "innovate_uk", silo := "UK",
    behave := fun msg _ => .reply
      (createResponse msg (Ctx.searchResults [gA] 1 "iuk_nlm" "innovate_uk")
        .search) }

def nlmB : NLM :=
  { nlmId := "nihr_nlm", domain := "nihr", silo := "UK",
    behave := fun msg _ => .reply
      (createResponse msg (Ctx.searchResults [gB] 1 "nihr_nlm" "nihr")
        .search) }

def embedW : String → List ℝ := fun _ => [1]

def uuidW : Nat → String := fun _ => "corr"

/-- Counterexample to claim C1 as stated: two registered agents, each
returning a single grant for `max_results = 1`, yield an aggregated
response holding 2 grants — the public `query` does not truncate the
grant list to `k`. -/
theorem claim_C1_counterexample :
    (queryModel [nlmA, nlmB] embedW uuidW {} "robotics" 1 {} 0).1.grants.length = 2
    ∧ ¬((queryModel [nlmA, nlmB] embedW uuidW {} "robotics" 1 {} 0).1.grants.length ≤ 1) := by
  have hgr : (queryModel [nlmA, nlmB] embedW uuidW {} "robotics" 1 {} 0).1.grants
      = pySort aggLe
          [scoreGrant embedW (embedW "robotics") "iuk_nlm" gA,
           scoreGrant embedW (embedW "robotics") "nihr_nlm" gB] := rfl
  constructor
  · rw [hgr, length_pySort]
    rfl
  · rw [hgr, length_pySort]
    simp

/-- Witness for the amended C1 at the same concrete configuration. -/
theorem claim_C1_witness :
    (queryModel [nlmA, nlmB] embedW uuidW {} "robotics" 1 {} 0).1.grants.length
      ≤ 1 * ([nlmA, nlmB] : List NLM).length
    ∧ (∀ g ∈ (queryModel [nlmA, nlmB] embedW uuidW {} "robotics" 1 {} 0).1.grants,
        ∃ rscore, g.relevanceScore = some rscore ∧ -1 ≤ rscore ∧ rscore ≤ 1) := by
  have h := claim_C1_query_bounds [nlmA, nlmB] embedW uuidW {} "robotics" 1 {} 0
    rfl (by decide)
    (by
      intro nlm hmem msg a m hreply hty
      rcases List.mem_cons.mp hmem with rfl | hmem'
      · cases hreply; rfl
      · rcases List.mem_cons.mp hmem' with rfl | h0
        · cases hreply; rfl
        · cases h0)
    (by
      intro s
      simp [embedW, dotL])
  exact ⟨h.1, h.2.1⟩

/-! ## Claim C6: cache eviction and the size cap -/

theorem mem_cacheSet (c : Cache) (k : CacheKey) (v : AggResult × ℚ) :
    ∀ e ∈ cacheSet c k v, e ∈ c ∨ e = (k, v) := by
  induction c with
  | nil => intro e he; simp [cacheSet] at he; exact Or.inr he
  | cons p rest ih =>
    intro e he
    obtain ⟨k', v'⟩ := p
    simp only [cacheSet] at he
    by_cases hk : k' = k
    · rw [if_pos hk] at he
      rcases List.mem_cons.mp he with rfl | hrest
      · exact Or.inr rfl
      · exact Or.inl (List.mem_cons_of_mem _ hrest)
    · rw [if_neg hk] at he
      rcases List.mem_cons.mp he with rfl | hrest
      · exact Or.inl (List.mem_cons_self _ _)
      · rcases ih e hrest with h | h
        · exact Or.inl (List.mem_cons_of_mem _ h)
        · exact Or.inr h

theorem cacheSet_length_of_fresh_key (c : Cache) (k : CacheKey)
    (v : AggResult × ℚ) (hk : ∀ e ∈ c, e.1 ≠ k) :
    (cacheSet c k v).length = c.length + 1 := by
  induction c with
  | nil => rfl
  | cons p rest ih =>
    have hne : p.1 ≠ k := hk p (List.mem_cons_self _ _)
    simp only [cacheSet]
    rw [if_neg hne]
    simp only [List.length_cons]
    rw [ih fun e he => hk e (List.mem_cons_of_mem _ he)]

theorem pruneCache_of_all_fresh (now : ℚ) (c : Cache)
    (hfresh : ∀ e ∈ c, ¬(now - e.2.2 > 3600)) :
    pruneCache now c = c := by
  unfold pruneCache
  apply List.filter_eq_self.mpr
  intro e he
  simpa using hfresh e he

/-- Claim C6 (amended): when a store pushes the entry count over the cap,
eviction drops exactly the entries older than the TTL and nothing else;
in particular, when every entry is still fresh the store grows the cache
to `|cache| + 1` entries — the size cap is not enforced. -/
theorem claim_C6_store_prunes_only_expired (c : Cache) (key : CacheKey)
    (res : AggResult) (now : ℚ)
    (hfresh : ∀ e ∈ c, ¬(now - e.2.2 > 3600))
    (hnew : ∀ e ∈ c, e.1 ≠ key) :
    (storeAndPrune c key res now).length = c.length + 1
    ∧ pruneCache now c = c := by
  have hlen : (cacheSet c key (res, now)).length = c.length + 1 :=
    cacheSet_length_of_fresh_key c key (res, now) hnew
  have hfresh' : ∀ e ∈ cacheSet c key (res, now), ¬(now - e.2.2 > 3600) := by
    intro e he
    rcases mem_cacheSet c key (res, now) e he with h | rfl
    · exact hfresh e h
    · simp
  constructor
  · unfold storeAndPrune
    by_cases hc : (cacheSet c key (res, now)).length > 1000
    · rw [if_pos hc, pruneCache_of_all_fresh now _ hfresh', hlen]
    · rw [if_neg hc, hlen]
  · exact pruneCache_of_all_fresh now c hfresh

/-- Concrete cache of 1001 fresh entries under distinct keys. -/
def emptyAgg : AggResult :=
  { query := "", nlmsQueried := [], totalResults := 0, grants := [] }

def strOfLen (n : Nat) : String := String.mk (List.replicate n 'a')

def bigCacheC6 : Cache :=
  (List.range 1001).map fun i =>
    ((strOfLen (i + 1), 0, ({} : Filters)), emptyAgg, (0 : ℚ))

def keyC6 : CacheKey := ("", 0, {})

theorem bigCacheC6_fresh : ∀ e ∈ bigCacheC6, ¬((0 : ℚ) - e.2.2 > 3600) := by
  intro e he
  obtain ⟨i, _, rfl⟩ := List.mem_map.mp he
  simp

theorem bigCacheC6_keys : ∀ e ∈ bigCacheC6, e.1 ≠ keyC6 := by
  intro e he
  obtain ⟨i, _, rfl⟩ := List.mem_map.mp he
  intro hcontra
  have h1 : strOfLen (i + 1) = "" :=
    congrArg (fun t : CacheKey => t.1) hcontra
  have h2 : (List.replicate (i + 1) 'a').length = 0 := by
    simpa [strOfLen] using congrArg (fun s : String => s.data.length) h1
  simp at h2

theorem bigCacheC6_length : bigCacheC6.length = 1001 := by
  simp [bigCacheC6]

/-- Counterexample to claim C6 as stated: storing a fresh entry into a
cache of 1001 fresh entries leaves 1002 entries — the prune step drops
nothing because no entry is older than the TTL, so the cache size is not
bounded by the cap of 1000. -/
theorem claim_C6_counterexample :
    (storeAndPrune bigCacheC6 keyC6 emptyAgg 0).length = 1002
    ∧ 1000 < (storeAndPrune bigCacheC6 keyC6 emptyAgg 0).length := by
  have h := claim_C6_store_prunes_only_expired bigCacheC6 keyC6 emptyAgg 0
    bigCacheC6_fresh bigCacheC6_keys
  rw [h.1, bigCacheC6_length]
  exact ⟨rfl, by omega⟩

/-- Witness for the amended C6 at a concrete two-entry fresh cache. -/
theorem claim_C6_witness :
    (storeAndPrune [((strOfLen 1, 0, ({} : Filters)), emptyAgg, (0 : ℚ))]
        keyC6 emptyAgg 0).length
      = [((strOfLen 1, 0, ({} : Filters)), emptyAgg, (0 : ℚ))].length + 1 :=
  (claim_C6_store_prunes_only_expired _ keyC6 emptyAgg 0
    (by
      intro e he
      rcases List.mem_cons.mp he with rfl | h
      · simp
      · cases h)
    (by
      intro e he
      rcases List.mem_cons.mp he with rfl | h
      · intro hcontra
        have h1 : strOfLen 1 = "" :=
          congrArg (fun t : CacheKey => t.1) hcontra
        have h2 : (List.replicate 1 'a').length = 0 := by
          simpa [strOfLen] using congrArg (fun s : String => s.data.length) h1
        simp at h2
      · cases h)).1

/-! ## Claim C7: identical queries and cache hits -/

theorem cacheLookup_cacheSet_self (c : Cache) (k : CacheKey)
    (v : AggResult × ℚ) : cacheLookup (cacheSet c k v) k = some v := by
  induction c with
  | nil => simp [cacheSet, cacheLookup]
  | cons p rest ih =>
    obtain ⟨k', v'⟩ := p
    simp only [cacheSet]
    by_cases hk : k' = k
    · rw [if_pos hk]
      simp [cacheLookup]
    · rw [if_neg hk]
      simp only [cacheLookup]
      rw [if_neg hk]
      exact ih

theorem cacheLookup_filter (p : CacheKey × AggResult × ℚ → Bool) :
    ∀ (c : Cache) (k : CacheKey) (v : AggResult × ℚ),
      cacheLookup c k = some v → p (k, v) = true →
      cacheLookup (c.filter p) k = some v := by
  intro c
  induction c with
  | nil => intro k v h _; cases h
  | cons e rest ih =>
    intro k v h hp
    obtain ⟨k', v'⟩ := e
    simp only [cacheLookup] at h
    by_cases hk : k' = k
    · rw [if_pos hk] at h
      injection h with h
      subst h
      subst hk
      rw [List.filter_cons_of_pos hp]
      simp [cacheLookup]
    · rw [if_neg hk] at h
      by_cases hpe : p (k', v') = true
      · rw [List.filter_cons_of_pos hpe]
        simp only [cacheLookup]
        rw [if_neg hk]
        exact ih k v h hp
      · rw [List.filter_cons_of_neg (by simpa using hpe)]
        exact ih k v h hp

theorem cacheLookup_storeAndPrune_self (c : Cache) (key : CacheKey)
    (res : AggResult) (now : ℚ) :
    cacheLookup (storeAndPrune c key res now) key = some (res, now) := by
  have hset := cacheLookup_cacheSet_self c key (res, now)
  unfold storeAndPrune
  by_cases hc : (cacheSet c key (res, now)).length > 1000
  · rw [if_pos hc]
    unfold pruneCache
    refine cacheLookup_filter _ _ key (res, now) hset ?_
    simp
  · rw [if_neg hc]
    exact hset

theorem queryModel_miss_eq (nlms : List NLM) (embed : String → List ℝ)
    (uuid : Nat → String) (st : OrchState) (q : String) (k : Nat)
    (F : Filters) (now : ℚ)
    (hmiss : cacheLookup st.cache (q, k, F) = none) :
    queryModel nlms embed uuid st q k F now
      = (missResult nlms embed uuid now q k F,
         { st with cacheMisses := st.cacheMisses + 1
                   cache := storeAndPrune st.cache (q, k, F)
                     (missResult nlms embed uuid now q k F) now }) := by
  simp only [queryModel, hmiss]

theorem queryModel_hit_eq (nlms : List NLM) (embed : String → List ℝ)
    (uuid : Nat → String) (st : OrchState) (q : String) (k : Nat)
    (F : Filters) (now : ℚ) (r : AggResult) (ts : ℚ)
    (hlook : cacheLookup st.cache (q, k, F) = some (r, ts))
    (hfresh : now - ts < 3600) :
    queryModel nlms embed uuid st q k F now
      = ({ r with fromCache := some true, cacheAgeSeconds := some (now - ts) },
         { st with cacheHits := st.cacheHits + 1
                   cache := cacheSet st.cache (q, k, F)
                     ({ r with fromCache := some true
                               cacheAgeSeconds := some (now - ts) }, ts) }) := by
  simp only [queryModel, hlook]
  rw [if_pos hfresh]

/-- Claim C7: two back-to-back `query` calls with the same query string,
`max_results` and filter map (the second within the TTL) return equal
grant lists, and the second response is served from the cache with
`from_cache = true` and the correct age.  The cache key in the source is
a hash of the raw query (normalisation is the identity), `max_results`
and the sorted filter map, so identical inputs map to the same key. -/
theorem claim_C7_repeat_query_hits_cache (nlms : List NLM)
    (embed : String → List ℝ) (uuid : Nat → String) (st : OrchState)
    (q : String) (k : Nat) (F : Filters) (now1 now2 : ℚ)
    (hmiss : cacheLookup st.cache (q, k, F) = none)
    (hage : now2 - now1 < 3600) :
    ((queryModel nlms embed uuid
        (queryModel nlms embed uuid st q k F now1).2 q k F now2).1.grants
      = (queryModel nlms embed uuid st q k F now1).1.grants)
    ∧ (queryModel nlms embed uuid
        (queryModel nlms embed uuid st q k F now1).2 q k F now2).1.fromCache
      = some true
    ∧ (queryModel nlms embed uuid
        (queryModel nlms embed uuid st q k F now1).2 q k F now2).1.cacheAgeSeconds
      = some (now2 - now1)
    ∧ (queryModel nlms embed uuid
        (queryModel nlms embed uuid st q k F now1).2 q k F now2).2.cacheHits
      = (queryModel nlms embed uuid st q k F now1).2.cacheHits + 1 := by
  have h1 := queryModel_miss_eq nlms embed uuid st q k F now1 hmiss
  have h2 : cacheLookup (queryModel nlms embed uuid st q k F now1).2.cache
      (q, k, F) = some (missResult nlms embed uuid now1 q k F, now1) := by
    rw [h1]
    exact cacheLookup_storeAndPrune_self _ _ _ _
  have h3 := queryModel_hit_eq nlms embed uuid
    (queryModel nlms embed uuid st q k F now1).2 q k F now2
    (missResult nlms embed uuid now1 q k F) now1 h2 hage
  refine ⟨?_, ?_, ?_, ?_⟩
  · rw [h3, h1]
  · rw [h3]
  · rw [h3]
  · rw [h3]

/-- Witness for C7 at a concrete empty starting state. -/
theorem claim_C7_witness :
    ((queryModel [] embedW uuidW
        (queryModel [] embedW uuidW {} "ai grants" 5 {} 0).2 "ai grants" 5 {} 1).1.grants
      = (queryModel [] embedW uuidW {} "ai grants" 5 {} 0).1.grants)
    ∧ (queryModel [] embedW uuidW
        (queryModel [] embedW uuidW {} "ai grants" 5 {} 0).2 "ai grants" 5 {} 1).1.fromCache
      = some true := by
  have h := claim_C7_repeat_query_hits_cache [] embedW uuidW {} "ai grants" 5 {}
    0 1 rfl (by norm_num)
  exact ⟨h.1, h.2.1⟩

/-! ## Claim C9: a cache hit returns an alias of the stored response

The value-level `queryModel` above cannot express object identity, so the
hit path of `Orchestrator.query` (lines 186–195 and the store at 216) is
rendered once more over an explicit heap: response dicts live at heap
addresses, the cache maps keys to addresses, and the hit mutates the
addressed object in place and returns the address itself. -/

def heapGet : List AggResult → Nat → Option AggResult
  | [], _ => none
  | r :: _, 0 => some r
  | _ :: rest, n + 1 => heapGet rest n

def heapSet : List AggResult → Nat → AggResult → List AggResult
  | [], _, _ => []
  | _ :: rest, 0, v => v :: rest
  | r :: rest, n + 1, v => r :: heapSet rest n v

theorem heapGet_heapSet_of_some (h : List AggResult) (a : Nat)
    (x v : AggResult) (hx : heapGet h a = some x) :
    heapGet (heapSet h a v) a = some v := by
  induction h generalizing a with
  | nil => cases hx
  | cons r rest ih =>
    cases a with
    | zero => rfl
    | succ n => exact ih n hx

abbrev AddrCache : Type := List (CacheKey × Nat × ℚ)

def addrLookup (c : AddrCache) (k : CacheKey) : Option (Nat × ℚ) :=
  match c with
  | [] => none
  | (k', v) :: rest => if k' = k then some v else addrLookup rest k

structure HeapState where
  heap : List AggResult
  cacheAddr : AddrCache

/-- The in-place mutation performed on a cache hit: set `from_cache` and
`cache_age_seconds` on the stored response dict. -/
def markCached (res : AggResult) (age : ℚ) : AggResult :=
  { res with fromCache := some true, cacheAgeSeconds := some age }

/-- Heap-level rendering of the cache-hit path of `Orchestrator.query`:
on a fresh hit, mutate the stored response dict in place (set
`from_cache` and `cache_age_seconds` on the object the cache points to)
and return its address. -/
def hitQueryHeap (st : HeapState) (key : CacheKey) (now : ℚ) :
    Option (Nat × HeapState) :=
  match addrLookup st.cacheAddr key with
  | some (addr, ts) =>
    if now - ts < 3600 then
      match heapGet st.heap addr with
      | some res =>
        some (addr, { st with heap := heapSet st.heap addr (markCached res (now - ts)) })
      | none => none
    else none
  | none => none

/-- Claim C9: a cache hit mutates the stored entry in place and returns
an alias of it.  The returned address is the cached address; after the
hit the object at that address permanently carries `from_cache = true`;
and a caller mutation through the returned address is what a later hit
on the same key serves. -/
theorem claim_C9_hit_returns_alias (st : HeapState) (key : CacheKey)
    (now : ℚ) (addr : Nat) (ts : ℚ) (res : AggResult)
    (hlook : addrLookup st.cacheAddr key = some (addr, ts))
    (hres : heapGet st.heap addr = some res)
    (hage : now - ts < 3600) :
    ∃ st', hitQueryHeap st key now = some (addr, st')
      ∧ st'.cacheAddr = st.cacheAddr
      ∧ heapGet st'.heap addr = some (markCached res (now - ts))
      ∧ (∀ r' : AggResult, heapGet (heapSet st'.heap addr r') addr = some r')
      ∧ (∀ (r' : AggResult) (now2 : ℚ), now2 - ts < 3600 →
          hitQueryHeap { st' with heap := heapSet st'.heap addr r' } key now2
            = some (addr, { st' with
                heap := heapSet (heapSet st'.heap addr r') addr
                  (markCached r' (now2 - ts)) })) := by
  refine ⟨{ st with heap := heapSet st.heap addr (markCached res (now - ts)) },
    ?_, rfl, ?_, ?_, ?_⟩
  · unfold hitQueryHeap
    simp only [hlook]
    rw [if_pos hage, hres]
  · exact heapGet_heapSet_of_some st.heap addr res _ hres
  · intro r'
    have h1 : heapGet (heapSet st.heap addr (markCached res (now - ts))) addr
        = some (markCached res (now - ts)) :=
      heapGet_heapSet_of_some st.heap addr res _ hres
    exact heapGet_heapSet_of_some _ addr _ r' h1
  · intro r' now2 hage2
    have h1 : heapGet (heapSet st.heap addr (markCached res (now - ts))) addr
        = some (markCached res (now - ts)) :=
      heapGet_heapSet_of_some st.heap addr res _ hres
    have h2 : heapGet (heapSet (heapSet st.heap addr
        (markCached res (now - ts))) addr r') addr = some r' :=
      heapGet_heapSet_of_some _ addr _ r' h1
    unfold hitQueryHeap
    simp only [hlook]
    rw [if_pos hage2, h2]

/-- Witness for C9 at a one-object heap. -/
theorem claim_C9_witness :
    ∃ st', hitQueryHeap
        { heap := [emptyAgg], cacheAddr := [(keyC6, 0, 0)] } keyC6 1
      = some (0, st')
      ∧ st'.cacheAddr = [(keyC6, 0, 0)]
      ∧ heapGet st'.heap 0 = some (markCached emptyAgg 1) := by
  obtain ⟨st', h1, h2, h3, _, _⟩ := claim_C9_hit_returns_alias
    { heap := [emptyAgg], cacheAddr := [(keyC6, 0, 0)] } keyC6 1 0 0 emptyAgg
    rfl rfl (by norm_num)
  refine ⟨st', h1, h2, ?_⟩
  simpa using h3

/-! ## Python values and JSON (`json.dumps` / `json.loads`)

The metadata round-trip of `_prepare_metadata` and the read paths goes
through the standard library's JSON.  Python values reaching it are
modelled by `PyVal`; dict keys are hashable primitives (`PyKey` — strings,
ints, bools, `None`), exactly the keys `json.dumps` accepts and coerces to
strings.  Floats are outside the model (none of the claims involve
float-valued metadata).  `dumps` mirrors `json.dumps` with its default
separators; non-ASCII characters are passed through rather than
`\\u`-escaped, which leaves every round-trip property unchanged. -/

inductive PyKey where
  | str (s : String)
  | int (n : Int)
  | bool (b : Bool)
  | none
  deriving DecidableEq, Repr

inductive PyVal where
  | str (s : String)
  | int (n : Int)
  | bool (b : Bool)
  | none
  | list (xs : List PyVal)
  | dict (kvs : List (PyKey × PyVal))

def quoteChar : Char := Char.ofNat 34

def backslashChar : Char := Char.ofNat 92

def lbraceChar : Char := Char.ofNat 123

def rbraceChar : Char := Char.ofNat 125

def hexDigit (n : Nat) : Char :=
  if n < 10 then Char.ofNat (48 + n) else Char.ofNat (87 + n)

/-- JSON string escaping as `json.dumps` performs it: quote, backslash and
the short control escapes, `\\u00XX` for the remaining control characters,
everything else verbatim. -/
def escapeChar (c : Char) : List Char :=
  if c = quoteChar then [backslashChar, quoteChar]
  else if c = backslashChar then [backslashChar, backslashChar]
  else if c.toNat = 10 then [backslashChar, 'n']
  else if c.toNat = 9 then [backslashChar, 't']
  else if c.toNat = 13 then [backslashChar, 'r']
  else if c.toNat = 8 then [backslashChar, 'b']
  else if c.toNat = 12 then [backslashChar, 'f']
  else if c.toNat < 32 then
    [backslashChar, 'u', '0', '0', hexDigit (c.toNat / 16), hexDigit (c.toNat % 16)]
  else [c]

def escapeList : List Char → List Char
  | [] => []
  | c :: cs => escapeChar c ++ escapeList cs

def emitString (s : String) : List Char :=
  quoteChar :: escapeList s.data ++ [quoteChar]

def digitChar (n : Nat) : Char := Char.ofNat (48 + n)

def natToDigitsAux : Nat → Nat → List Char
  | 0, _ => []
  | fuel + 1, n =>
    if n < 10 then [digitChar n]
    else natToDigitsAux fuel (n / 10) ++ [digitChar (n % 10)]

def natToDigits (n : Nat) : List Char := natToDigitsAux (n + 1) n

def emitInt (n : Int) : List Char :=
  if n < 0 then '-' :: natToDigits n.natAbs else natToDigits n.natAbs

/-- The string `json.dumps` coerces a dict key to. -/
def keyStr : PyKey → String
  | .str s => s
  | .int n => String.mk (emitInt n)
  | .bool true => "true"
  | .bool false => "false"
  | .none => "null"

mutual

def emitValue : PyVal → List Char
  | .str s => emitString s
  | .int n => emitInt n
  | .bool true => ['t', 'r', 'u', 'e']
  | .bool false => ['f', 'a', 'l', 's', 'e']
  | .none => ['n', 'u', 'l', 'l']
  | .list xs => '[' :: emitItems xs ++ [']']
  | .dict kvs => lbraceChar :: emitPairs kvs ++ [rbraceChar]

def emitItems : List PyVal → List Char
  | [] => []
  | [x] => emitValue x
  | x :: y :: rest => emitValue x ++ [',', ' '] ++ emitItems (y :: rest)

def emitPairs : List (PyKey × PyVal) → List Char
  | [] => []
  | [(k, v)] => emitString (keyStr k) ++ [':', ' '] ++ emitValue v
  | (k, v) :: p :: rest =>
    emitString (keyStr k) ++ [':', ' '] ++ emitValue v ++ [',', ' ']
      ++ emitPairs (p :: rest)

end

/-- From `json.dumps` (defaults), producing the stored text. -/
def dumps (v : PyVal) : String := String.mk (emitValue v)

mutual

/-- Key coercion applied by a dumps/loads round trip: every dict key
becomes its string form; values are coerced recursively. -/
def coerceVal : PyVal → PyVal
  | .str s => .str s
  | .int n => .int n
  | .bool b => .bool b
  | .none => .none
  | .list xs => .list (coerceList xs)
  | .dict kvs => .dict (coercePairs kvs)

def coerceList : List PyVal → List PyVal
  | [] => []
  | x :: xs => coerceVal x :: coerceList xs

def coercePairs : List (PyKey × PyVal) → List (PyKey × PyVal)
  | [] => []
  | (k, v) :: rest => (.str (keyStr k), coerceVal v) :: coercePairs rest

end

mutual

/-- Dicts whose keys are all strings, at every nesting level; on these the
round trip is the identity. -/
def strKeyed : PyVal → Bool
  | .str _ => true
  | .int _ => true
  | .bool _ => true
  | .none => true
  | .list xs => strKeyedList xs
  | .dict kvs => strKeyedPairs kvs

def strKeyedList : List PyVal → Bool
  | [] => true
  | x :: xs => strKeyed x && strKeyedList xs

def strKeyedPairs : List (PyKey × PyVal) → Bool
  | [] => true
  | (k, v) :: rest =>
    (match k with | .str _ => true | _ => false) && strKeyed v
      && strKeyedPairs rest

end

/-! The JSON reader (`json.loads`), a recursive-descent parser over the
character list, fuelled for termination.  It accepts what `dumps` emits
(and standard JSON whitespace); non-integer numbers are not produced by
the writer and are rejected, which in the read paths below simply means
falling back to the raw string. -/

def skipWs : List Char → List Char
  | [] => []
  | c :: cs => if c.isWhitespace then skipWs cs else c :: cs

def hexVal (c : Char) : Option Nat :=
  if 48 ≤ c.toNat ∧ c.toNat ≤ 57 then some (c.toNat - 48)
  else if 97 ≤ c.toNat ∧ c.toNat ≤ 102 then some (c.toNat - 87)
  else if 65 ≤ c.toNat ∧ c.toNat ≤ 70 then some (c.toNat - 55)
  else none

/-- Decode one escape sequence (the characters after a backslash),
returning the decoded character and the remaining input. -/
def decodeEscape : List Char → Option (Char × List Char)
  | [] => Option.none
  | e :: rest2 =>
    if e = quoteChar then some (quoteChar, rest2)
    else if e = backslashChar then some (backslashChar, rest2)
    else if e = '/' then some ('/', rest2)
    else if e = 'n' then some (Char.ofNat 10, rest2)
    else if e = 't' then some (Char.ofNat 9, rest2)
    else if e = 'r' then some (Char.ofNat 13, rest2)
    else if e = 'b' then some (Char.ofNat 8, rest2)
    else if e = 'f' then some (Char.ofNat 12, rest2)
    else if e = 'u' then
      match rest2 with
      | h1 :: h2 :: h3 :: h4 :: rest3 =>
        match hexVal h1, hexVal h2, hexVal h3, hexVal h4 with
        | some a, some b, some c', some d =>
          some (Char.ofNat (((a * 16 + b) * 16 + c') * 16 + d), rest3)
        | _, _, _, _ => Option.none
      | _ => Option.none
    else Option.none

def parseStringChars : Nat → List Char → Option (List Char × List Char)
  | 0, _ => Option.none
  | _ + 1, [] => Option.none
  | fuel + 1, c :: rest =>
    if c = quoteChar then some ([], rest)
    else if c = backslashChar then
      match decodeEscape rest with
      | some (x, rest2) =>
        (parseStringChars fuel rest2).map fun p => (x :: p.1, p.2)
      | Option.none => Option.none
    else (parseStringChars fuel rest).map fun p => (c :: p.1, p.2)

def natFromDigits (ds : List Char) : Nat :=
  ds.foldl (fun acc c => acc * 10 + (c.toNat - 48)) 0

def parseNumber (cs : List Char) : Option (PyVal × List Char) :=
  match cs with
  | [] => Option.none
  | c :: rest =>
    if c = '-' then
      let ds := rest.takeWhile Char.isDigit
      if ds = [] then Option.none
      else some (.int (-(natFromDigits ds : Int)), rest.dropWhile Char.isDigit)
    else
      let ds := (c :: rest).takeWhile Char.isDigit
      if ds = [] then Option.none
      else some (.int (natFromDigits ds : Int),
        (c :: rest).dropWhile Char.isDigit)

mutual

def parseValue : Nat → List Char → Option (PyVal × List Char)
  | 0, _ => Option.none
  | fuel + 1, cs =>
    match skipWs cs with
    | [] => Option.none
    | c :: rest =>
      if c = quoteChar then
        (parseStringChars (rest.length + 1) rest).map fun p =>
          (.str (String.mk p.1), p.2)
      else if c = '[' then
        match skipWs rest with
        | ']' :: rest2 => some (.list [], rest2)
        | _ => (parseItems fuel rest).map fun p => (.list p.1, p.2)
      else if c = lbraceChar then
        match skipWs rest with
        | r :: rest2 =>
          if r = rbraceChar then some (.dict [], rest2)
          else (parsePairs fuel rest).map fun p => (.dict p.1, p.2)
        | [] => Option.none
      else if c = 't' then
        match rest with
        | 'r' :: 'u' :: 'e' :: rest2 => some (.bool true, rest2)
        | _ => Option.none
      else if c = 'f' then
        match rest with
        | 'a' :: 'l' :: 's' :: 'e' :: rest2 => some (.bool false, rest2)
        | _ => Option.none
      else if c = 'n' then
        match rest with
        | 'u' :: 'l' :: 'l' :: rest2 => some (.none, rest2)
        | _ => Option.none
      else parseNumber (c :: rest)

def parseItems : Nat → List Char → Option (List PyVal × List Char)
  | 0, _ => Option.none
  | fuel + 1, cs =>
    match parseValue fuel cs with
    | Option.none => Option.none
    | some (v, rest) =>
      match skipWs rest with
      | ',' :: rest2 =>
        (parseItems fuel rest2).map fun p => (v :: p.1, p.2)
      | ']' :: rest2 => some ([v], rest2)
      | _ => Option.none

def parsePairs : Nat → List Char → Option (List (PyKey × PyVal) × List Char)
  | 0, _ => Option.none
  | fuel + 1, cs =>
    match skipWs cs with
    | c :: rest =>
      if c = quoteChar then
        match parseStringChars (rest.length + 1) rest with
        | Option.none => Option.none
        | some (kchars, rest2) =>
          match skipWs rest2 with
          | ':' :: rest3 =>
            match parseValue fuel rest3 with
            | Option.none => Option.none
            | some (v, rest4) =>
              match skipWs rest4 with
              | ',' :: rest5 =>
                (parsePairs fuel rest5).map fun p =>
                  ((PyKey.str (String.mk kchars), v) :: p.1, p.2)
              | r :: rest5 =>
                if r = rbraceChar then
                  some ([(PyKey.str (String.mk kchars), v)], rest5)
                else Option.none
              | [] => Option.none
          | _ => Option.none
      else Option.none
    | [] => Option.none

end

/-- From `json.loads`: parse with enough fuel and require only trailing
whitespace. -/
def loads (s : String) : Option PyVal :=
  match parseValue (s.data.length + 1) s.data with
  | some (v, rest) => if skipWs rest = [] then some v else Option.none
  | Option.none => Option.none

/-! Round-trip lemmas: the reader inverts the writer (modulo key
coercion). -/

theorem char_ne_of_toNat_ne {c c' : Char} (h : c.toNat ≠ c'.toNat) :
    c ≠ c' := fun he => h (congrArg Char.toNat he)

theorem digitChar_toNat (d : Nat) (h : d < 10) :
    (digitChar d).toNat = 48 + d := by
  unfold digitChar
  interval_cases d <;> rfl

theorem digitChar_isDigit (d : Nat) (h : d < 10) :
    (digitChar d).isDigit = true := by
  unfold digitChar
  interval_cases d <;> decide

theorem digitChar_not_ws (d : Nat) (h : d < 10) :
    (digitChar d).isWhitespace = false := by
  unfold digitChar
  interval_cases d <;> decide

theorem natToDigitsAux_all :
    ∀ (fuel n : Nat), n < fuel →
      ∀ c ∈ natToDigitsAux fuel n, ∃ d, d < 10 ∧ c = digitChar d := by
  intro fuel
  induction fuel with
  | zero => intro n h; omega
  | succ f ih =>
    intro n h c hc
    rw [natToDigitsAux] at hc
    by_cases h10 : n < 10
    · rw [if_pos h10] at hc
      rcases List.mem_singleton.mp hc with rfl
      exact ⟨n, h10, rfl⟩
    · rw [if_neg h10] at hc
      rcases List.mem_append.mp hc with h1 | h1
      · exact ih (n / 10) (by omega) c h1
      · rcases List.mem_singleton.mp h1 with rfl
        exact ⟨n % 10, by omega, rfl⟩

theorem natToDigits_all (n : Nat) :
    ∀ c ∈ natToDigits n, ∃ d, d < 10 ∧ c = digitChar d :=
  natToDigitsAux_all (n + 1) n (by omega)

theorem natToDigitsAux_head :
    ∀ (fuel n : Nat), n < fuel →
      ∃ d tl, d < 10 ∧ natToDigitsAux fuel n = digitChar d :: tl := by
  intro fuel
  induction fuel with
  | zero => intro n h; omega
  | succ f ih =>
    intro n h
    rw [natToDigitsAux]
    by_cases h10 : n < 10
    · rw [if_pos h10]
      exact ⟨n, [], h10, rfl⟩
    · rw [if_neg h10]
      obtain ⟨d, tl, hd, heq⟩ := ih (n / 10) (by omega)
      exact ⟨d, tl ++ [digitChar (n % 10)], hd, by rw [heq]; rfl⟩

theorem natToDigits_head (n : Nat) :
    ∃ d tl, d < 10 ∧ natToDigits n = digitChar d :: tl :=
  natToDigitsAux_head (n + 1) n (by omega)

theorem natFromDigits_append (a : List Char) (d : Char) :
    natFromDigits (a ++ [d]) = natFromDigits a * 10 + (d.toNat - 48) := by
  simp [natFromDigits, List.foldl_append]

theorem natFromDigits_natToDigitsAux :
    ∀ (fuel n : Nat), n < fuel →
      natFromDigits (natToDigitsAux fuel n) = n := by
  intro fuel
  induction fuel with
  | zero => intro n h; omega
  | succ f ih =>
    intro n h
    rw [natToDigitsAux]
    by_cases h10 : n < 10
    · rw [if_pos h10]
      simp [natFromDigits, digitChar_toNat n h10]
    · rw [if_neg h10]
      rw [natFromDigits_append, ih (n / 10) (by omega),
        digitChar_toNat (n % 10) (by omega)]
      omega

theorem natFromDigits_natToDigits (n : Nat) :
    natFromDigits (natToDigits n) = n :=
  natFromDigits_natToDigitsAux (n + 1) n (by omega)

theorem takeWhile_append_of_all {α : Type} (p : α → Bool) (ds rest : List α)
    (hall : ∀ c ∈ ds, p c = true)
    (hrest : ∀ c, rest.head? = some c → p c = false) :
    (ds ++ rest).takeWhile p = ds ∧ (ds ++ rest).dropWhile p = rest := by
  induction ds with
  | nil =>
    cases rest with
    | nil => simp
    | cons r t =>
      have hr : p r = false := hrest r rfl
      simp [List.takeWhile_cons, List.dropWhile_cons, hr]
  | cons d t ih =>
    have hd : p d = true := hall d (List.mem_cons_self _ _)
    have iht := ih fun c hc => hall c (List.mem_cons_of_mem _ hc)
    simp only [List.cons_append, List.takeWhile_cons, List.dropWhile_cons, hd]
    simp [iht.1, iht.2]

theorem natToDigits_digits (n : Nat) :
    ∀ c ∈ natToDigits n, c.isDigit = true := by
  intro c hc
  obtain ⟨d, hd, rfl⟩ := natToDigits_all n c hc
  exact digitChar_isDigit d hd

theorem parseNumber_emitInt (n : Int) (rest : List Char)
    (hrest : ∀ c, rest.head? = some c → c.isDigit = false) :
    parseNumber (emitInt n ++ rest) = some (.int n, rest) := by
  obtain ⟨d, tl, hd, heq⟩ := natToDigits_head n.natAbs
  have hsplit := takeWhile_append_of_all Char.isDigit (natToDigits n.natAbs)
    rest (natToDigits_digits n.natAbs) hrest
  by_cases hn : n < 0
  · unfold emitInt
    rw [if_pos hn]
    simp only [List.cons_append, parseNumber, if_pos rfl]
    rw [hsplit.1, hsplit.2]
    have hne : natToDigits n.natAbs ≠ [] := by rw [heq]; simp
    rw [if_neg hne, natFromDigits_natToDigits]
    have : -(n.natAbs : Int) = n := by omega
    rw [this]
    simp
  · unfold emitInt
    rw [if_neg hn, heq]
    simp only [List.cons_append, parseNumber]
    have hne45 : digitChar d ≠ '-' := by
      apply char_ne_of_toNat_ne
      rw [digitChar_toNat d hd]
      have h45 : ('-' : Char).toNat = 45 := rfl
      omega
    rw [if_neg hne45]
    rw [← List.cons_append, ← heq]
    rw [hsplit.1, hsplit.2]
    have hne : natToDigits n.natAbs ≠ [] := by rw [heq]; simp
    rw [if_neg hne, natFromDigits_natToDigits]
    have : (n.natAbs : Int) = n := by omega
    rw [this]

theorem hexVal_hexDigit (n : Nat) (h : n < 16) :
    hexVal (hexDigit n) = some n := by
  unfold hexVal hexDigit
  interval_cases n <;> rfl

theorem parseStringChars_cons (fuel : Nat) (c : Char) (rest : List Char)
    (h1 : c ≠ quoteChar) (h2 : c ≠ backslashChar) :
    parseStringChars (fuel + 1) (c :: rest)
      = (parseStringChars fuel rest).map fun p => (c :: p.1, p.2) := by
  show (if c = quoteChar then some ([], rest)
        else if c = backslashChar then
          match decodeEscape rest with
          | some (x, rest2) =>
            (parseStringChars fuel rest2).map fun p => (x :: p.1, p.2)
          | Option.none => Option.none
        else (parseStringChars fuel rest).map fun p => (c :: p.1, p.2))
      = (parseStringChars fuel rest).map fun p => (c :: p.1, p.2)
  rw [if_neg h1, if_neg h2]

theorem parseStringChars_backslash (fuel : Nat) (rest : List Char) :
    parseStringChars (fuel + 1) (backslashChar :: rest)
      = match decodeEscape rest with
        | some (x, rest2) =>
          (parseStringChars fuel rest2).map fun p => (x :: p.1, p.2)
        | Option.none => Option.none := rfl

theorem decodeEscape_unicode (hi lo : Nat) (hhi : hi < 16) (hlo : lo < 16)
    (tail : List Char) :
    decodeEscape ('u' :: '0' :: '0' :: hexDigit hi :: hexDigit lo :: tail)
      = some (Char.ofNat (hi * 16 + lo), tail) := by
  show (match hexVal '0', hexVal '0', hexVal (hexDigit hi), hexVal (hexDigit lo) with
        | some a, some b, some c', some d =>
          some (Char.ofNat (((a * 16 + b) * 16 + c') * 16 + d), tail)
        | _, _, _, _ => Option.none)
      = some (Char.ofNat (hi * 16 + lo), tail)
  rw [hexVal_hexDigit hi hhi, hexVal_hexDigit lo hlo]
  show some (Char.ofNat (((0 * 16 + 0) * 16 + hi) * 16 + lo), tail)
      = some (Char.ofNat (hi * 16 + lo), tail)
  have harith : ((0 * 16 + 0) * 16 + hi) * 16 + lo = hi * 16 + lo := by ring
  rw [harith]

theorem escapeChar_length_pos (c : Char) : 1 ≤ (escapeChar c).length := by
  unfold escapeChar
  split_ifs <;> simp

theorem parse_escapeList :
    ∀ (l : List Char) (fuel : Nat) (rest : List Char),
      (escapeList l).length < fuel →
      parseStringChars fuel (escapeList l ++ (quoteChar :: rest))
        = some (l, rest) := by
  intro l
  induction l with
  | nil =>
    intro fuel rest hf
    simp only [escapeList, List.length_nil] at hf
    cases fuel with
    | zero => omega
    | succ f => exact rfl
  | cons c cs ih =>
    intro fuel rest hf
    have hlc : 1 ≤ (escapeChar c).length := escapeChar_length_pos c
    have hlen : (escapeChar c).length + (escapeList cs).length < fuel := by
      simpa [escapeList] using hf
    cases fuel with
    | zero => omega
    | succ f =>
      have hcs : (escapeList cs).length < f := by omega
      have ihf := ih f rest hcs
      by_cases h1 : c = quoteChar
      · subst h1
        show (parseStringChars f (escapeList cs ++ quoteChar :: rest)).map
            (fun p => (quoteChar :: p.1, p.2)) = some (quoteChar :: cs, rest)
        rw [ihf]
        rfl
      · by_cases h2 : c = backslashChar
        · subst h2
          show (parseStringChars f (escapeList cs ++ quoteChar :: rest)).map
              (fun p => (backslashChar :: p.1, p.2))
            = some (backslashChar :: cs, rest)
          rw [ihf]
          rfl
        · by_cases h3 : c.toNat = 10
          · have hc : c = Char.ofNat 10 := by rw [← Char.ofNat_toNat c, h3]
            subst hc
            show (parseStringChars f (escapeList cs ++ quoteChar :: rest)).map
                (fun p => (Char.ofNat 10 :: p.1, p.2))
              = some (Char.ofNat 10 :: cs, rest)
            rw [ihf]
            rfl
          · by_cases h4 : c.toNat = 9
            · have hc : c = Char.ofNat 9 := by rw [← Char.ofNat_toNat c, h4]
              subst hc
              show (parseStringChars f (escapeList cs ++ quoteChar :: rest)).map
                  (fun p => (Char.ofNat 9 :: p.1, p.2))
                = some (Char.ofNat 9 :: cs, rest)
              rw [ihf]
              rfl
            · by_cases h5 : c.toNat = 13
              · have hc : c = Char.ofNat 13 := by rw [← Char.ofNat_toNat c, h5]
                subst hc
                show (parseStringChars f (escapeList cs ++ quoteChar :: rest)).map
                    (fun p => (Char.ofNat 13 :: p.1, p.2))
                  = some (Char.ofNat 13 :: cs, rest)
                rw [ihf]
                rfl
              · by_cases h6 : c.toNat = 8
                · have hc : c = Char.ofNat 8 := by rw [← Char.ofNat_toNat c, h6]
                  subst hc
                  show (parseStringChars f (escapeList cs ++ quoteChar :: rest)).map
                      (fun p => (Char.ofNat 8 :: p.1, p.2))
                    = some (Char.ofNat 8 :: cs, rest)
                  rw [ihf]
                  rfl
                · by_cases h7 : c.toNat = 12
                  · have hc : c = Char.ofNat 12 := by rw [← Char.ofNat_toNat c, h7]
                    subst hc
                    show (parseStringChars f (escapeList cs ++ quoteChar :: rest)).map
                        (fun p => (Char.ofNat 12 :: p.1, p.2))
                      = some (Char.ofNat 12 :: cs, rest)
                    rw [ihf]
                    rfl
                  · by_cases h8 : c.toNat < 32
                    · have heq : escapeChar c
                          = [backslashChar, 'u', '0', '0',
                             hexDigit (c.toNat / 16), hexDigit (c.toNat % 16)] := by
                        unfold escapeChar
                        rw [if_neg h1, if_neg h2, if_neg h3, if_neg h4,
                          if_neg h5, if_neg h6, if_neg h7, if_pos h8]
                      rw [escapeList, List.append_assoc, heq]
                      rw [List.cons_append, List.cons_append, List.cons_append,
                        List.cons_append, List.cons_append, List.cons_append,
                        List.nil_append]
                      rw [parseStringChars_backslash f _]
                      rw [decodeEscape_unicode (c.toNat / 16) (c.toNat % 16)
                        (by omega) (by omega) _]
                      show (parseStringChars f (escapeList cs ++ quoteChar :: rest)).map
                          (fun p =>
                            (Char.ofNat (c.toNat / 16 * 16 + c.toNat % 16) :: p.1, p.2))
                        = some (c :: cs, rest)
                      rw [ihf]
                      have harith : c.toNat / 16 * 16 + c.toNat % 16 = c.toNat := by
                        omega
                      rw [harith, Char.ofNat_toNat]
                      rfl
                    · have heq : escapeChar c = [c] := by
                        unfold escapeChar
                        rw [if_neg h1, if_neg h2, if_neg h3, if_neg h4,
                          if_neg h5, if_neg h6, if_neg h7, if_neg h8]
                      rw [escapeList, List.append_assoc, heq]
                      rw [List.cons_append, List.nil_append]
                      rw [parseStringChars_cons f c _ h1 h2, ihf]
                      rfl

/-! Fuel measure sufficient for parsing an emitted value, and gadget
lemmas that step the parser over emitted shapes. -/

mutual

def needV : PyVal → Nat
  | .str _ => 1
  | .int _ => 1
  | .bool _ => 1
  | .none => 1
  | .list xs => 1 + needItems xs
  | .dict kvs => 1 + needPairs kvs

def needItems : List PyVal → Nat
  | [] => 0
  | x :: rest => 1 + max (needV x) (needItems rest)

def needPairs : List (PyKey × PyVal) → Nat
  | [] => 0
  | (_, v) :: rest => 1 + max (needV v) (needPairs rest)

end

theorem needV_pos (v : PyVal) : 1 ≤ needV v := by
  cases v <;> simp [needV]

theorem skipWs_cons_not_ws (c : Char) (l : List Char)
    (h : c.isWhitespace = false) : skipWs (c :: l) = c :: l := by
  rw [skipWs]
  simp [h]

theorem skipWs_space (l : List Char) : skipWs (' ' :: l) = skipWs l := by
  rw [skipWs]
  simp

theorem parseValue_congr_skipWs (fuel : Nat) (a b : List Char)
    (h : skipWs a = skipWs b) : parseValue fuel a = parseValue fuel b := by
  cases fuel with
  | zero => rfl
  | succ f =>
    simp only [parseValue]
    rw [h]

theorem parseValue_space (fuel : Nat) (l : List Char) :
    parseValue fuel (' ' :: l) = parseValue fuel l :=
  parseValue_congr_skipWs fuel (' ' :: l) l (skipWs_space l)

theorem parseItems_space (fuel : Nat) (l : List Char) :
    parseItems fuel (' ' :: l) = parseItems fuel l := by
  cases fuel with
  | zero => rfl
  | succ f =>
    simp only [parseItems]
    rw [parseValue_space f l]

theorem parsePairs_space (fuel : Nat) (l : List Char) :
    parsePairs fuel (' ' :: l) = parsePairs fuel l := by
  cases fuel with
  | zero => rfl
  | succ f =>
    simp only [parsePairs]
    rw [skipWs_space l]

theorem parseValue_number_head (f : Nat) (c : Char) (tail : List Char)
    (hws : c.isWhitespace = false) (h1 : c ≠ quoteChar) (h2 : c ≠ '[')
    (h3 : c ≠ lbraceChar) (h4 : c ≠ 't') (h5 : c ≠ 'f') (h6 : c ≠ 'n') :
    parseValue (f + 1) (c :: tail) = parseNumber (c :: tail) := by
  simp only [parseValue]
  rw [skipWs_cons_not_ws c tail hws]
  show (if c = quoteChar then
          (parseStringChars (tail.length + 1) tail).map fun p =>
            (PyVal.str (String.mk p.1), p.2)
        else if c = '[' then
          match skipWs tail with
          | ']' :: rest2 => some (PyVal.list [], rest2)
          | _ => (parseItems f tail).map fun p => (PyVal.list p.1, p.2)
        else if c = lbraceChar then
          match skipWs tail with
          | r :: rest2 =>
            if r = rbraceChar then some (PyVal.dict [], rest2)
            else (parsePairs f tail).map fun p => (PyVal.dict p.1, p.2)
          | [] => Option.none
        else if c = 't' then
          match tail with
          | 'r' :: 'u' :: 'e' :: rest2 => some (PyVal.bool true, rest2)
          | _ => Option.none
        else if c = 'f' then
          match tail with
          | 'a' :: 'l' :: 's' :: 'e' :: rest2 => some (PyVal.bool false, rest2)
          | _ => Option.none
        else if c = 'n' then
          match tail with
          | 'u' :: 'l' :: 'l' :: rest2 => some (PyVal.none, rest2)
          | _ => Option.none
        else parseNumber (c :: tail))
      = parseNumber (c :: tail)
  rw [if_neg h1, if_neg h2, if_neg h3, if_neg h4, if_neg h5, if_neg h6]

theorem parseValue_lbrack (f : Nat) (tail : List Char) (c0 : Char)
    (tl0 : List Char) (hsk : skipWs tail = c0 :: tl0) (hne : c0 ≠ ']') :
    parseValue (f + 1) ('[' :: tail)
      = (parseItems f tail).map fun p => (PyVal.list p.1, p.2) := by
  simp only [parseValue]
  rw [skipWs_cons_not_ws '[' tail (by decide)]
  show (match skipWs tail with
        | ']' :: rest2 => some (PyVal.list [], rest2)
        | _ => (parseItems f tail).map fun p => (PyVal.list p.1, p.2))
      = (parseItems f tail).map fun p => (PyVal.list p.1, p.2)
  rw [hsk]
  split
  next heq =>
    injection heq with hc _
    exact absurd hc hne
  next => rfl

theorem parseValue_lbrace (f : Nat) (tail : List Char) (c0 : Char)
    (tl0 : List Char) (hsk : skipWs tail = c0 :: tl0)
    (hne : c0 ≠ rbraceChar) :
    parseValue (f + 1) (lbraceChar :: tail)
      = (parsePairs f tail).map fun p => (PyVal.dict p.1, p.2) := by
  simp only [parseValue]
  rw [skipWs_cons_not_ws lbraceChar tail (by decide)]
  show (match skipWs tail with
        | r :: rest2 =>
          if r = rbraceChar then some (PyVal.dict [], rest2)
          else (parsePairs f tail).map fun p => (PyVal.dict p.1, p.2)
        | [] => Option.none)
      = (parsePairs f tail).map fun p => (PyVal.dict p.1, p.2)
  rw [hsk]
  show (if c0 = rbraceChar then some (PyVal.dict [], tl0)
        else (parsePairs f tail).map fun p => (PyVal.dict p.1, p.2))
      = (parsePairs f tail).map fun p => (PyVal.dict p.1, p.2)
  rw [if_neg hne]

theorem emitItems_cons (x : PyVal) (t : List PyVal) :
    ∃ tl, emitItems (x :: t) = emitValue x ++ tl := by
  cases t with
  | nil => exact ⟨[], by simp [emitItems]⟩
  | cons y t' =>
    exact ⟨[',', ' '] ++ emitItems (y :: t'), by simp [emitItems]⟩

theorem emitPairs_cons_head (p : PyKey × PyVal) (t : List (PyKey × PyVal)) :
    ∃ tl, emitPairs (p :: t) = quoteChar :: tl := by
  obtain ⟨k, v⟩ := p
  cases t with
  | nil =>
    exact ⟨escapeList (keyStr k).data ++ [quoteChar] ++ ([':', ' '] ++ emitValue v),
      by simp [emitPairs, emitString]⟩
  | cons p' t' =>
    exact ⟨escapeList (keyStr k).data ++ [quoteChar]
        ++ ([':', ' '] ++ emitValue v ++ [',', ' '] ++ emitPairs (p' :: t')),
      by simp [emitPairs, emitString]⟩

theorem emitValue_head (v : PyVal) :
    ∃ c tl, emitValue v = c :: tl ∧ c.isWhitespace = false
      ∧ c ≠ ']' ∧ c ≠ rbraceChar ∧ c ≠ ',' := by
  cases v with
  | str s =>
    exact ⟨quoteChar, escapeList s.data ++ [quoteChar], rfl,
      by decide, by decide, by decide, by decide⟩
  | int n =>
    by_cases hn : n < 0
    · refine ⟨'-', natToDigits n.natAbs, ?_, by decide, by decide, by decide, by decide⟩
      show emitInt n = '-' :: natToDigits n.natAbs
      unfold emitInt
      rw [if_pos hn]
    · obtain ⟨d, tl, hd, heq⟩ := natToDigits_head n.natAbs
      refine ⟨digitChar d, tl, ?_, digitChar_not_ws d hd, ?_, ?_, ?_⟩
      · show emitInt n = digitChar d :: tl
        unfold emitInt
        rw [if_neg hn, heq]
      · apply char_ne_of_toNat_ne
        rw [digitChar_toNat d hd]
        have : (']' : Char).toNat = 93 := rfl
        omega
      · apply char_ne_of_toNat_ne
        rw [digitChar_toNat d hd]
        have : rbraceChar.toNat = 125 := rfl
        omega
      · apply char_ne_of_toNat_ne
        rw [digitChar_toNat d hd]
        have : (',' : Char).toNat = 44 := rfl
        omega
  | bool b =>
    cases b with
    | true =>
      exact ⟨'t', ['r', 'u', 'e'], rfl, by decide, by decide, by decide, by decide⟩
    | false =>
      exact ⟨'f', ['a', 'l', 's', 'e'], rfl, by decide, by decide, by decide, by decide⟩
  | none =>
    exact ⟨'n', ['u', 'l', 'l'], rfl, by decide, by decide, by decide, by decide⟩
  | list xs =>
    exact ⟨'[', emitItems xs ++ [']'], rfl, by decide, by decide, by decide, by decide⟩
  | dict kvs =>
    exact ⟨lbraceChar, emitPairs kvs ++ [rbraceChar], rfl,
      by decide, by decide, by decide, by decide⟩

theorem head_not_digit (c0 : Char) (l : List Char) (h : c0.isDigit = false) :
    ∀ c, (c0 :: l).head? = some c → c.isDigit = false := by
  intro c hc
  simp only [List.head?_cons, Option.some.injEq] at hc
  subst hc
  exact h

/-- One reduction step of the pair parser on a quote-headed input. -/
theorem parsePairs_cons_quote (f : Nat) (tl : List Char) :
    parsePairs (f + 1) (quoteChar :: tl)
      = match parseStringChars (tl.length + 1) tl with
        | Option.none => Option.none
        | some (kchars, rest2) =>
          match skipWs rest2 with
          | ':' :: rest3 =>
            match parseValue f rest3 with
            | Option.none => Option.none
            | some (v, rest4) =>
              match skipWs rest4 with
              | ',' :: rest5 =>
                (parsePairs f rest5).map fun p =>
                  ((PyKey.str (String.mk kchars), v) :: p.1, p.2)
              | r :: rest5 =>
                if r = rbraceChar then
                  some ([(PyKey.str (String.mk kchars), v)], rest5)
                else Option.none
              | [] => Option.none
          | _ => Option.none := rfl

mutual

/-- Parsing an emitted value (with enough fuel, followed by a
non-digit-headed remainder) returns its key-coerced form and the
remainder. -/
theorem parseValue_emit (v : PyVal) (fuel : Nat) (rest : List Char)
    (hfuel : needV v ≤ fuel)
    (hrest : ∀ c, rest.head? = some c → c.isDigit = false) :
    parseValue fuel (emitValue v ++ rest) = some (coerceVal v, rest) := by
  cases fuel with
  | zero =>
    exfalso
    have := needV_pos v
    omega
  | succ f =>
    cases v with
    | str s =>
      show (parseStringChars (((escapeList s.data ++ [quoteChar]) ++ rest).length + 1)
          ((escapeList s.data ++ [quoteChar]) ++ rest)).map
          (fun p => (PyVal.str (String.mk p.1), p.2))
        = some (coerceVal (PyVal.str s), rest)
      rw [List.append_assoc, List.singleton_append]
      rw [parse_escapeList s.data
        ((escapeList s.data ++ quoteChar :: rest).length + 1) rest
        (by simp only [List.length_append, List.length_cons]; omega)]
      rfl
    | int n =>
      by_cases hn : n < 0
      · have heq : emitValue (PyVal.int n) = '-' :: natToDigits n.natAbs := by
          show emitInt n = _
          unfold emitInt
          rw [if_pos hn]
        rw [heq, List.cons_append]
        rw [parseValue_number_head f '-' (natToDigits n.natAbs ++ rest)
          (by decide) (by decide) (by decide) (by decide) (by decide)
          (by decide) (by decide)]
        rw [← List.cons_append, ← heq]
        exact parseNumber_emitInt n rest hrest
      · obtain ⟨d, tl, hd, hnd⟩ := natToDigits_head n.natAbs
        have heq : emitValue (PyVal.int n) = digitChar d :: tl := by
          show emitInt n = _
          unfold emitInt
          rw [if_neg hn, hnd]
        have htn := digitChar_toNat d hd
        have hq : digitChar d ≠ quoteChar := by
          apply char_ne_of_toNat_ne
          rw [htn]
          have : quoteChar.toNat = 34 := rfl
          omega
        have hbk : digitChar d ≠ '[' := by
          apply char_ne_of_toNat_ne
          rw [htn]
          have : ('[' : Char).toNat = 91 := rfl
          omega
        have hbc : digitChar d ≠ lbraceChar := by
          apply char_ne_of_toNat_ne
          rw [htn]
          have : lbraceChar.toNat = 123 := rfl
          omega
        have hct : digitChar d ≠ 't' := by
          apply char_ne_of_toNat_ne
          rw [htn]
          have : ('t' : Char).toNat = 116 := rfl
          omega
        have hcf : digitChar d ≠ 'f' := by
          apply char_ne_of_toNat_ne
          rw [htn]
          have : ('f' : Char).toNat = 102 := rfl
          omega
        have hcn : digitChar d ≠ 'n' := by
          apply char_ne_of_toNat_ne
          rw [htn]
          have : ('n' : Char).toNat = 110 := rfl
          omega
        rw [heq, List.cons_append]
        rw [parseValue_number_head f (digitChar d) (tl ++ rest)
          (digitChar_not_ws d hd) hq hbk hbc hct hcf hcn]
        rw [← List.cons_append, ← heq]
        exact parseNumber_emitInt n rest hrest
    | bool b => cases b <;> rfl
    | none => rfl
    | list xs =>
      cases xs with
      | nil => rfl
      | cons x t =>
        show parseValue (f + 1) ('[' :: ((emitItems (x :: t) ++ [']']) ++ rest))
          = some (coerceVal (PyVal.list (x :: t)), rest)
        rw [List.append_assoc, List.singleton_append]
        obtain ⟨tl1, htl1⟩ := emitItems_cons x t
        obtain ⟨c0, tl0, hx, hxws, hxbr, _, _⟩ := emitValue_head x
        have hform : emitItems (x :: t) ++ (']' :: rest)
            = c0 :: ((tl0 ++ tl1) ++ (']' :: rest)) := by
          rw [htl1, hx]
          simp
        have hsk : skipWs (emitItems (x :: t) ++ (']' :: rest))
            = c0 :: ((tl0 ++ tl1) ++ (']' :: rest)) := by
          rw [hform]
          exact skipWs_cons_not_ws _ _ hxws
        rw [parseValue_lbrack f (emitItems (x :: t) ++ (']' :: rest)) c0
          ((tl0 ++ tl1) ++ (']' :: rest)) hsk hxbr]
        rw [parseItems_emit (x :: t) f rest (by simp)
          (by simp only [needV] at hfuel; omega)]
        rfl
    | dict kvs =>
      cases kvs with
      | nil => rfl
      | cons hd t =>
        show parseValue (f + 1)
            (lbraceChar :: ((emitPairs (hd :: t) ++ [rbraceChar]) ++ rest))
          = some (coerceVal (PyVal.dict (hd :: t)), rest)
        rw [List.append_assoc, List.singleton_append]
        obtain ⟨tl0, hp⟩ := emitPairs_cons_head hd t
        have hform : emitPairs (hd :: t) ++ (rbraceChar :: rest)
            = quoteChar :: (tl0 ++ (rbraceChar :: rest)) := by
          rw [hp]
          simp
        have hsk : skipWs (emitPairs (hd :: t) ++ (rbraceChar :: rest))
            = quoteChar :: (tl0 ++ (rbraceChar :: rest)) := by
          rw [hform]
          exact skipWs_cons_not_ws _ _ (by decide)
        rw [parseValue_lbrace f (emitPairs (hd :: t) ++ (rbraceChar :: rest))
          quoteChar (tl0 ++ (rbraceChar :: rest)) hsk (by decide)]
        rw [parsePairs_emit (hd :: t) f rest (by simp)
          (by simp only [needV] at hfuel; omega)]
        rfl

/-- Parsing emitted list items followed by the closing bracket returns
the key-coerced items. -/
theorem parseItems_emit (xs : List PyVal) (fuel : Nat) (rest : List Char)
    (hne : xs ≠ []) (hfuel : needItems xs ≤ fuel) :
    parseItems fuel (emitItems xs ++ (']' :: rest))
      = some (coerceList xs, rest) := by
  cases xs with
  | nil => exact absurd rfl hne
  | cons x t =>
    cases fuel with
    | zero =>
      exfalso
      simp only [needItems] at hfuel
      omega
    | succ f =>
      simp only [parseItems]
      cases t with
      | nil =>
        rw [show emitItems [x] = emitValue x from rfl]
        rw [parseValue_emit x f (']' :: rest)
          (by simp only [needItems] at hfuel; omega)
          (head_not_digit ']' rest (by decide))]
        rfl
      | cons y t' =>
        have hemit : emitItems (x :: y :: t')
            = emitValue x ++ (',' :: ' ' :: emitItems (y :: t')) := by
          simp [emitItems]
        rw [hemit, List.append_assoc]
        simp only [List.cons_append]
        rw [parseValue_emit x f
          (',' :: ' ' :: (emitItems (y :: t') ++ (']' :: rest)))
          (by simp only [needItems] at hfuel; omega)
          (head_not_digit ',' _ (by decide))]
        show (parseItems f (' ' :: (emitItems (y :: t') ++ (']' :: rest)))).map
            (fun p => (coerceVal x :: p.1, p.2))
          = some (coerceList (x :: y :: t'), rest)
        rw [parseItems_space f (emitItems (y :: t') ++ (']' :: rest))]
        rw [parseItems_emit (y :: t') f rest (by simp)
          (by simp only [needItems] at hfuel ⊢; omega)]
        rfl

/-- Parsing emitted dict pairs followed by the closing brace returns
the key-coerced pairs. -/
theorem parsePairs_emit (kvs : List (PyKey × PyVal)) (fuel : Nat)
    (rest : List Char) (hne : kvs ≠ []) (hfuel : needPairs kvs ≤ fuel) :
    parsePairs fuel (emitPairs kvs ++ (rbraceChar :: rest))
      = some (coercePairs kvs, rest) := by
  cases kvs with
  | nil => exact absurd rfl hne
  | cons hd t =>
    obtain ⟨k, v⟩ := hd
    cases fuel with
    | zero =>
      exfalso
      simp only [needPairs] at hfuel
      omega
    | succ f =>
      cases t with
      | nil =>
        have hin : emitPairs [(k, v)] ++ (rbraceChar :: rest)
            = quoteChar :: (escapeList (keyStr k).data
                ++ (quoteChar :: (':' :: ' ' :: (emitValue v
                    ++ (rbraceChar :: rest))))) := by
          simp [emitPairs, emitString]
        rw [hin, parsePairs_cons_quote f _]
        rw [parse_escapeList (keyStr k).data
          ((escapeList (keyStr k).data
              ++ (quoteChar :: (':' :: ' ' :: (emitValue v
                  ++ (rbraceChar :: rest))))).length + 1)
          (':' :: ' ' :: (emitValue v ++ (rbraceChar :: rest)))
          (by simp only [List.length_append, List.length_cons]; omega)]
        show (match parseValue f (' ' :: (emitValue v ++ (rbraceChar :: rest))) with
              | Option.none => Option.none
              | some (v2, rest4) =>
                match skipWs rest4 with
                | ',' :: rest5 =>
                  (parsePairs f rest5).map fun p =>
                    ((PyKey.str (String.mk (keyStr k).data), v2) :: p.1, p.2)
                | r :: rest5 =>
                  if r = rbraceChar then
                    some ([(PyKey.str (String.mk (keyStr k).data), v2)], rest5)
                  else Option.none
                | [] => Option.none)
            = some (coercePairs [(k, v)], rest)
        rw [parseValue_space f (emitValue v ++ (rbraceChar :: rest))]
        rw [parseValue_emit v f (rbraceChar :: rest)
          (by simp only [needPairs] at hfuel; omega)
          (head_not_digit rbraceChar rest (by decide))]
        rfl
      | cons p t' =>
        obtain ⟨k2, v2⟩ := p
        have hin : emitPairs ((k, v) :: (k2, v2) :: t') ++ (rbraceChar :: rest)
            = quoteChar :: (escapeList (keyStr k).data
                ++ (quoteChar :: (':' :: ' ' :: (emitValue v
                    ++ (',' :: ' ' :: (emitPairs ((k2, v2) :: t')
                        ++ (rbraceChar :: rest))))))) := by
          simp [emitPairs, emitString]
        rw [hin, parsePairs_cons_quote f _]
        rw [parse_escapeList (keyStr k).data
          ((escapeList (keyStr k).data
              ++ (quoteChar :: (':' :: ' ' :: (emitValue v
                  ++ (',' :: ' ' :: (emitPairs ((k2, v2) :: t')
                      ++ (rbraceChar :: rest))))))).length + 1)
          (':' :: ' ' :: (emitValue v
              ++ (',' :: ' ' :: (emitPairs ((k2, v2) :: t')
                  ++ (rbraceChar :: rest)))))
          (by simp only [List.length_append, List.length_cons]; omega)]
        show (match parseValue f (' ' :: (emitValue v
                ++ (',' :: ' ' :: (emitPairs ((k2, v2) :: t')
                    ++ (rbraceChar :: rest))))) with
              | Option.none => Option.none
              | some (v3, rest4) =>
                match skipWs rest4 with
                | ',' :: rest5 =>
                  (parsePairs f rest5).map fun p =>
                    ((PyKey.str (String.mk (keyStr k).data), v3) :: p.1, p.2)
                | r :: rest5 =>
                  if r = rbraceChar then
                    some ([(PyKey.str (String.mk (keyStr k).data), v3)], rest5)
                  else Option.none
                | [] => Option.none)
            = some (coercePairs ((k, v) :: (k2, v2) :: t'), rest)
        rw [parseValue_space f (emitValue v
          ++ (',' :: ' ' :: (emitPairs ((k2, v2) :: t')
              ++ (rbraceChar :: rest))))]
        rw [parseValue_emit v f
          (',' :: ' ' :: (emitPairs ((k2, v2) :: t') ++ (rbraceChar :: rest)))
          (by simp only [needPairs] at hfuel; omega)
          (head_not_digit ',' _ (by decide))]
        show (parsePairs f (' ' :: (emitPairs ((k2, v2) :: t')
              ++ (rbraceChar :: rest)))).map
            (fun p => ((PyKey.str (String.mk (keyStr k).data), coerceVal v)
                :: p.1, p.2))
          = some (coercePairs ((k, v) :: (k2, v2) :: t'), rest)
        rw [parsePairs_space f (emitPairs ((k2, v2) :: t')
          ++ (rbraceChar :: rest))]
        rw [parsePairs_emit ((k2, v2) :: t') f rest (by simp)
          (by simp only [needPairs] at hfuel ⊢; omega)]
        rfl

end

mutual

theorem needV_le_emit (v : PyVal) : needV v ≤ (emitValue v).length := by
  cases v with
  | str s =>
    simp only [needV, emitValue, emitString, List.length_cons,
      List.length_append]
    omega
  | int n =>
    show 1 ≤ (emitInt n).length
    unfold emitInt
    obtain ⟨d, tl, hd, heq⟩ := natToDigits_head n.natAbs
    split <;> simp [heq]
  | bool b => cases b <;> decide
  | none => decide
  | list xs =>
    have h := needItems_le_emit xs
    simp only [needV, emitValue, List.length_cons, List.length_append,
      List.length_nil]
    omega
  | dict kvs =>
    have h := needPairs_le_emit kvs
    simp only [needV, emitValue, List.length_cons, List.length_append,
      List.length_nil]
    omega

theorem needItems_le_emit (xs : List PyVal) :
    needItems xs ≤ (emitItems xs).length + 1 := by
  cases xs with
  | nil => decide
  | cons x t =>
    cases t with
    | nil =>
      have h := needV_le_emit x
      simp only [needItems, emitItems]
      omega
    | cons y t' =>
      have h1 := needV_le_emit x
      have h2 := needItems_le_emit (y :: t')
      simp only [needItems, emitItems, List.length_append,
        List.length_cons, List.length_nil] at h2 ⊢
      omega

theorem needPairs_le_emit (kvs : List (PyKey × PyVal)) :
    needPairs kvs ≤ (emitPairs kvs).length + 1 := by
  cases kvs with
  | nil => decide
  | cons hd t =>
    obtain ⟨k, v⟩ := hd
    cases t with
    | nil =>
      have h := needV_le_emit v
      simp only [needPairs, emitPairs, emitString, List.length_append,
        List.length_cons, List.length_nil]
      omega
    | cons p t' =>
      obtain ⟨k2, v2⟩ := p
      have h1 := needV_le_emit v
      have h2 := needPairs_le_emit ((k2, v2) :: t')
      simp only [needPairs, emitPairs, emitString, List.length_append,
        List.length_cons, List.length_nil] at h2 ⊢
      omega

end

/-- From `json.loads (json.dumps v)` succeeds and returns `v` with every
dict key coerced to its string form (as `json` does). -/
theorem loads_dumps (v : PyVal) : loads (dumps v) = some (coerceVal v) := by
  have hb := needV_le_emit v
  have hp := parseValue_emit v ((emitValue v).length + 1) []
    (by omega) (by intro c hc; simp at hc)
  rw [List.append_nil] at hp
  have hun : loads (dumps v)
      = match parseValue ((emitValue v).length + 1) (emitValue v) with
        | some (w, rest) => if skipWs rest = [] then some w else Option.none
        | Option.none => Option.none := rfl
  rw [hun, hp]
  rfl

mutual

theorem coerceVal_of_strKeyed (v : PyVal) (h : strKeyed v = true) :
    coerceVal v = v := by
  cases v with
  | str s => rfl
  | int n => rfl
  | bool b => rfl
  | none => rfl
  | list xs => exact congrArg PyVal.list (coerceList_of_strKeyed xs h)
  | dict kvs => exact congrArg PyVal.dict (coercePairs_of_strKeyed kvs h)

theorem coerceList_of_strKeyed (xs : List PyVal)
    (h : strKeyedList xs = true) : coerceList xs = xs := by
  cases xs with
  | nil => rfl
  | cons x t =>
    simp only [strKeyedList, Bool.and_eq_true] at h
    show coerceVal x :: coerceList t = x :: t
    rw [coerceVal_of_strKeyed x h.1, coerceList_of_strKeyed t h.2]

theorem coercePairs_of_strKeyed (kvs : List (PyKey × PyVal))
    (h : strKeyedPairs kvs = true) : coercePairs kvs = kvs := by
  cases kvs with
  | nil => rfl
  | cons hd t =>
    obtain ⟨k, v⟩ := hd
    simp only [strKeyedPairs, Bool.and_eq_true] at h
    obtain ⟨⟨hk, hv⟩, hr⟩ := h
    cases k with
    | str s =>
      show (PyKey.str (keyStr (PyKey.str s)), coerceVal v) :: coercePairs t
        = (PyKey.str s, v) :: t
      rw [coerceVal_of_strKeyed v hv, coercePairs_of_strKeyed t hr]
      rfl
    | int n => exact Bool.noConfusion hk
    | bool b => cases b <;> exact Bool.noConfusion hk
    | none => exact Bool.noConfusion hk

end

/-! The metadata layer around the vector store (`base_nlm.py`):
`_prepare_metadata` serializes nested values to JSON text on write, and
`get_all_grants`/`search` parse bracket-headed text values back on read,
falling back to the raw string when parsing fails. -/

/-- Modeled from `BaseNLM._prepare_metadata`: drop `None`, keep scalars,
and `json.dumps` lists and dicts. -/
def prepareMetadata : List (String × PyVal) → List (String × PyVal)
  | [] => []
  | (k, v) :: rest =>
    match v with
    | .none => prepareMetadata rest
    | .str s => (k, .str s) :: prepareMetadata rest
    | .int n => (k, .int n) :: prepareMetadata rest
    | .bool b => (k, .bool b) :: prepareMetadata rest
    | .list xs => (k, .str (dumps (.list xs))) :: prepareMetadata rest
    | .dict kvs => (k, .str (dumps (.dict kvs))) :: prepareMetadata rest

/-- Python's `value.startswith('[') or value.startswith` of an opening
brace. -/
def startsBracket (s : String) : Bool :=
  match s.data with
  | [] => false
  | c :: _ => c = '[' || c = lbraceChar

/-- The read-side coercion of one stored metadata value: a text value
starting with a bracket is `json.loads`-parsed, with the raw string as
fallback; anything else passes through. -/
def readMetaValue (v : PyVal) : PyVal :=
  match v with
  | .str s =>
    if startsBracket s then
      match loads s with
      | some w => w
      | Option.none => .str s
    else .str s
  | other => other

/-- The per-record read path of `get_all_grants` (and of `search`'s
metadata handling). -/
def parseMetadata (meta : List (String × PyVal)) : List (String × PyVal) :=
  meta.map fun kv => (kv.1, readMetaValue kv.2)

/-- Python's `isinstance(value, (list, dict))`. -/
def isNested : PyVal → Bool
  | .list _ => true
  | .dict _ => true
  | _ => false

/-- A dict with a non-string key: `json.dumps` coerces the key `1` to
the string `"1"`, so the read-back differs from what was written. -/
def vC8 : PyVal := .dict [(.int 1, .str "a")]

/-- What the read path actually returns for `vC8`. -/
def vC8' : PyVal := .dict [(.str "1", .str "a")]

/-- C8 (counterexample): a grant field holding the dict with integer key
`1` is serialized by `_prepare_metadata` via `json.dumps` (which coerces
the key to the string form) and read back by the bracket-headed parse
path as a dict with the string key, which differs from the original
value; the write-then-read round trip is not the identity on every
list/dict value. -/
theorem claim_C8_counterexample :
    parseMetadata (prepareMetadata [("deadlines", vC8)])
      = [("deadlines", vC8')] ∧ vC8' ≠ vC8 := by
  refine ⟨rfl, ?_⟩
  intro h
  simp [vC8, vC8'] at h

/-- C8 (amended): for every grant field whose value is a list or dict
all of whose nested dict keys are strings, writing through
`_prepare_metadata` (JSON-serializing the value) and reading through the
`get_all_grants`/`search` parse path (parsing bracket-headed text, raw
string on failure) returns exactly the original field; in general the
read-back equals the original with every dict key coerced to its JSON
string form. -/
theorem claim_C8_nested_roundtrip (k : String) (v : PyVal)
    (hn : isNested v = true) (hs : strKeyed v = true) :
    parseMetadata (prepareMetadata [(k, v)]) = [(k, v)] := by
  cases v with
  | str s => exact Bool.noConfusion hn
  | int n => exact Bool.noConfusion hn
  | bool b => exact Bool.noConfusion hn
  | none => exact Bool.noConfusion hn
  | list xs =>
    have hread : readMetaValue (PyVal.str (dumps (PyVal.list xs)))
        = PyVal.list xs := by
      show (match loads (dumps (PyVal.list xs)) with
            | some w => w
            | Option.none => PyVal.str (dumps (PyVal.list xs)))
          = PyVal.list xs
      rw [loads_dumps (PyVal.list xs)]
      show coerceVal (PyVal.list xs) = PyVal.list xs
      exact coerceVal_of_strKeyed _ hs
    show [(k, readMetaValue (PyVal.str (dumps (PyVal.list xs))))]
      = [(k, PyVal.list xs)]
    rw [hread]
  | dict kvs =>
    have hread : readMetaValue (PyVal.str (dumps (PyVal.dict kvs)))
        = PyVal.dict kvs := by
      show (match loads (dumps (PyVal.dict kvs)) with
            | some w => w
            | Option.none => PyVal.str (dumps (PyVal.dict kvs)))
          = PyVal.dict kvs
      rw [loads_dumps (PyVal.dict kvs)]
      show coerceVal (PyVal.dict kvs) = PyVal.dict kvs
      exact coerceVal_of_strKeyed _ hs
    show [(k, readMetaValue (PyVal.str (dumps (PyVal.dict kvs))))]
      = [(k, PyVal.dict kvs)]
    rw [hread]

/-- C8 witness: a concrete nested field (a list of a string and an int
and a string-keyed dict) survives the write-then-read round trip. -/
theorem claim_C8_witness :
    isNested (PyVal.list [PyVal.str "x", PyVal.int 2,
        PyVal.dict [(PyKey.str "k", PyVal.int 3)]]) = true
    ∧ strKeyed (PyVal.list [PyVal.str "x", PyVal.int 2,
        PyVal.dict [(PyKey.str "k", PyVal.int 3)]]) = true
    ∧ parseMetadata (prepareMetadata [("deadlines",
        PyVal.list [PyVal.str "x", PyVal.int 2,
          PyVal.dict [(PyKey.str "k", PyVal.int 3)]])])
      = [("deadlines", PyVal.list [PyVal.str "x", PyVal.int 2,
          PyVal.dict [(PyKey.str "k", PyVal.int 3)]])] :=
  ⟨rfl, rfl, claim_C8_nested_roundtrip "deadlines"
    (PyVal.list [PyVal.str "x", PyVal.int 2,
      PyVal.dict [(PyKey.str "k", PyVal.int 3)]]) rfl rfl⟩

/-! The hybrid search of `BaseNLM.search`.  The vector store's reply is
a list of raw hits (stored metadata plus a vector distance); the
embedder and the store itself are external, so the function is modelled
over that reply. -/

structure RawHit where
  metadata : List (String × PyVal)
  distance : ℚ

structure SRec where
  grant : List (String × PyVal)
  relevanceScore : ℚ
  semanticScore : ℚ
  keywordScore : ℚ

/-- Python's `grant.get(k, '')` when the stored field is text. -/
def getStrField (g : List (String × PyVal)) (k : String) : String :=
  match g.lookup k with
  | some (.str s) => s
  | _ => ""

/-- From `search`: keyword overlap `|Q ∩ T| / max(|Q|, 1)` against the
lowercased title-plus-description token set. -/
def keywordScoreOf (queryTerms : Finset String)
    (g : List (String × PyVal)) : ℚ :=
  ((queryTerms ∩ tokenSet (pyLower
      (getStrField g "title" ++ " " ++ getStrField g "description"))).card : ℚ)
    / (max queryTerms.card 1 : ℚ)

/-- Scoring of one raw hit in `search`: parse the metadata, attach
`semantic_score = 1 - distance` (no clamping in the code),
`keyword_score`, and the 70/30 combination. -/
def scoreHit (queryTerms : Finset String) (h : RawHit) : SRec :=
  let grant := parseMetadata h.metadata
  let ks := keywordScoreOf queryTerms grant
  let ss : ℚ := 1 - h.distance
  { grant := grant
    relevanceScore := 7/10 * ss + 3/10 * ks
    semanticScore := ss
    keywordScore := ks }

/-- Descending order on combined scores (`reverse=True` sort). -/
def sRecLe (a b : SRec) : Prop := b.relevanceScore ≤ a.relevanceScore

instance : DecidableRel sRecLe :=
  fun a b =>
    inferInstanceAs (Decidable (b.relevanceScore ≤ a.relevanceScore))

/-- From `BaseNLM.search`: score every returned hit, sort by combined
score descending (Python's stable sort), return the top `max_results`. -/
def search (query : String) (maxResults : Nat) (hits : List RawHit) :
    List SRec :=
  (pySort sRecLe (hits.map (scoreHit (tokenSet (pyLower query))))).take
    maxResults

/-- A raw hit whose vector distance exceeds 1, as cosine distances of
dissimilar embeddings do (ChromaDB cosine distance ranges over [0, 2]). -/
def hitC4 : RawHit := ⟨[("title", PyVal.str "t")], 3/2⟩

/-- C4 (counterexample): for a hit at distance 3/2 the code attaches
`semantic_score = 1 - 3/2 = -1/2` with no clamping, while the claimed
clamp to [0, 1] would give 0: the record's semantic score differs from
the claimed clamped value. -/
theorem claim_C4_counterexample :
    ∃ r ∈ search "q" 10 [hitC4],
      r.semanticScore = 1 - hitC4.distance
      ∧ r.semanticScore ≠ max 0 (min 1 (1 - hitC4.distance)) := by
  refine ⟨scoreHit (tokenSet (pyLower "q")) hitC4,
    List.mem_singleton.mpr rfl, rfl, ?_⟩
  show (1 : ℚ) - hitC4.distance ≠ max 0 (min 1 (1 - hitC4.distance))
  show (1 : ℚ) - 3/2 ≠ max 0 (min 1 (1 - 3/2))
  norm_num

/-- C4 (amended): every record of the hybrid search carries
`semantic_score = 1 - distance` WITHOUT clamping (a distance above 1
yields a negative semantic score), `keyword_score = |Q ∩ T| / max(|Q|,
1)` over the lowercased token sets, and `relevance_score = 0.7 *
semantic_score + 0.3 * keyword_score`; the returned list is sorted
non-increasing by the combined score and has at most `max_results`
elements. -/
theorem claim_C4_hybrid_search (query : String) (maxResults : Nat)
    (hits : List RawHit) :
    (search query maxResults hits).length ≤ maxResults
    ∧ (search query maxResults hits).Pairwise sRecLe
    ∧ ∀ r ∈ search query maxResults hits, ∃ h ∈ hits,
        r.semanticScore = 1 - h.distance
        ∧ r.keywordScore = keywordScoreOf (tokenSet (pyLower query))
            (parseMetadata h.metadata)
        ∧ r.relevanceScore
            = 7/10 * r.semanticScore + 3/10 * r.keywordScore := by
  refine ⟨?_, ?_, ?_⟩
  · show ((pySort sRecLe _).take maxResults).length ≤ maxResults
    simp [List.length_take]
  · exact List.Pairwise.sublist (List.take_sublist _ _)
      (pairwise_pySort sRecLe
        (fun a b => le_total b.relevanceScore a.relevanceScore)
        (fun a b c hab hbc => le_trans hbc hab) _)
  · intro r hr
    have hr2 : r ∈ pySort sRecLe
        (hits.map (scoreHit (tokenSet (pyLower query)))) :=
      (List.take_sublist _ _).mem hr
    rw [mem_pySort] at hr2
    obtain ⟨h, hh, rfl⟩ := List.mem_map.mp hr2
    exact ⟨h, hh, rfl, rfl, rfl⟩

/-! Indexing (`BaseNLM.index_grant`) against the vector collection.
The collection is modelled as an association list from ids to stored
metadata records. -/

/-- Python dict assignment `d[k] = v`: replace the value at an existing
key in place, else append the new key. -/
def dictSet : List (String × PyVal) → String → PyVal → List (String × PyVal)
  | [], k, v => [(k, v)]
  | (k', v') :: rest, k, v =>
    if k' = k then (k, v) :: rest else (k', v') :: dictSet rest k v

/-- Modelled from the vector backend's documented contract for
`collection.add`: an id already present is rejected (the record is not
inserted and the existing record is NOT overwritten); new ids are
appended. -/
def chromaAdd (col : List (String × List (String × PyVal))) (id : String)
    (rec : List (String × PyVal)) : List (String × List (String × PyVal)) :=
  if (col.lookup id).isSome then col else col ++ [(id, rec)]

/-- Modelled from the spec: the §4.3 collection contract `upsert` —
idempotent by id; a same-id write overwrites the stored record. -/
def specUpsert : List (String × List (String × PyVal)) → String
    → List (String × PyVal) → List (String × List (String × PyVal))
  | [], id, rec => [(id, rec)]
  | (id', rec') :: rest, id, rec =>
    if id' = id then (id, rec) :: rest
    else (id', rec') :: specUpsert rest id rec

/-- The grant id `grant_data.get("grant_id", fallback)` with the
timestamp-based fallback. -/
def grantIdOf (nlmId now : String) (g : List (String × PyVal)) : String :=
  match g.lookup "grant_id" with
  | some (.str s) => s
  | _ => nlmId ++ "_" ++ now

/-- The metadata record `index_grant` stores: the grant data with
`nlm_id`, `domain`, `silo` and `indexed_at` stamped in, passed through
`_prepare_metadata`. -/
def indexedRecord (nlmId domain silo now : String)
    (g : List (String × PyVal)) : List (String × PyVal) :=
  prepareMetadata
    (dictSet (dictSet (dictSet (dictSet g
      "nlm_id" (.str nlmId)) "domain" (.str domain))
      "silo" (.str silo)) "indexed_at" (.str now))

/-- From `BaseNLM.index_grant`: stamp the metadata and write it to the
collection under the grant id — via `collection.add`. -/
def indexGrant (nlmId domain silo now : String) (g : List (String × PyVal))
    (col : List (String × List (String × PyVal))) :
    List (String × List (String × PyVal)) :=
  chromaAdd col (grantIdOf nlmId now g) (indexedRecord nlmId domain silo now g)

/-- Modelled from the spec: `index_grant` as §4.3 requires it, writing
through `upsert` instead of `add`. -/
def specIndexGrant (nlmId domain silo now : String)
    (g : List (String × PyVal))
    (col : List (String × List (String × PyVal))) :
    List (String × List (String × PyVal)) :=
  specUpsert col (grantIdOf nlmId now g) (indexedRecord nlmId domain silo now g)

/-- The failing input: one grant, indexed twice with the same
`grant_id` (at wall-clock stamps t1, then t2). -/
def gC3 : List (String × PyVal) :=
  [("grant_id", PyVal.str "g-1"), ("title", PyVal.str "A")]

def colOnceC3 : List (String × List (String × PyVal)) :=
  indexGrant "nlm" "health" "fed" "t1" gC3 []

def colTwiceC3 : List (String × List (String × PyVal)) :=
  indexGrant "nlm" "health" "fed" "t2" gC3 colOnceC3

/-- C3 (code bug): `index_grant` writes with `collection.add`, whose
contract skips an existing id, not with the `upsert` the spec's
collection contract prescribes.  Re-indexing the same `grant_id` leaves
the stored record untouched (still carrying `indexed_at = t1` and the
stale field values), whereas the spec-mandated `upsert` overwrites it
with the re-stamped record; the two final states differ. -/
theorem claim_C3_add_skips_existing_id :
    colTwiceC3 = colOnceC3
    ∧ colOnceC3 = [("g-1",
        [("grant_id", PyVal.str "g-1"), ("title", PyVal.str "A"),
         ("nlm_id", PyVal.str "nlm"), ("domain", PyVal.str "health"),
         ("silo", PyVal.str "fed"), ("indexed_at", PyVal.str "t1")])]
    ∧ specIndexGrant "nlm" "health" "fed" "t2" gC3 colOnceC3
        = [("g-1",
        [("grant_id", PyVal.str "g-1"), ("title", PyVal.str "A"),
         ("nlm_id", PyVal.str "nlm"), ("domain", PyVal.str "health"),
         ("silo", PyVal.str "fed"), ("indexed_at", PyVal.str "t2")])]
    ∧ specIndexGrant "nlm" "health" "fed" "t2" gC3 colOnceC3 ≠ colTwiceC3 := by
  refine ⟨rfl, rfl, rfl, ?_⟩
  intro h
  have h2 : ([("g-1",
      [("grant_id", PyVal.str "g-1"), ("title", PyVal.str "A"),
       ("nlm_id", PyVal.str "nlm"), ("domain", PyVal.str "health"),
       ("silo", PyVal.str "fed"), ("indexed_at", PyVal.str "t2")])]
      : List (String × List (String × PyVal)))
      = [("g-1",
      [("grant_id", PyVal.str "g-1"), ("title", PyVal.str "A"),
       ("nlm_id", PyVal.str "nlm"), ("domain", PyVal.str "health"),
       ("silo", PyVal.str "fed"), ("indexed_at", PyVal.str "t1")])] := h
  simp at h2

/-- C4 witness: the amended theorem at a concrete query and a single
concrete hit. -/
theorem claim_C4_witness :
    (search "q" 10 [hitC4]).length ≤ 10
    ∧ (search "q" 10 [hitC4]).Pairwise sRecLe
    ∧ ∀ r ∈ search "q" 10 [hitC4], ∃ h ∈ [hitC4],
        r.semanticScore = 1 - h.distance
        ∧ r.keywordScore = keywordScoreOf (tokenSet (pyLower "q"))
            (parseMetadata h.metadata)
        ∧ r.relevanceScore
            = 7/10 * r.semanticScore + 3/10 * r.keywordScore :=
  claim_C4_hybrid_search "q" 10 [hitC4]

end FALM
